import Mathlib

/-!
# The tornado animation of `icons/source/tornado.cpp`

A shallow embedding of `struct Anim` and of the driver loop of `main`.

Conventions of the embedding.

* `int` values (`w_`, `h_`, `distance`, the results of `midpoint`, `left`,
  `right`) are integers of `ℤ`; `/` on `int` is C++ truncating division,
  `Int.tdiv`.  The one `int` product of the program, `w_ * h_` in `buildFrame`,
  overflows when it exceeds `INT_MAX = 2147483647`; that is undefined
  behaviour, and `buildFrame` returns `none` for it.
* `int8_t` fields (`Row::length`, `Row::offset`) are integers of `ℤ`; a store
  into an `int8_t` reduces the value into `[-128, 127]` (`wrapInt8`).
* `size_t` and `unsigned long` values are natural numbers.
* `uint8_t` values are natural numbers; `static_cast<uint8_t>` is `% 256`.
* An access that the C++ code performs through `at()` and that is out of
  range (it throws), or through `operator[]` and that is out of range, makes
  the embedded function return `none`.
* `randint(-1, 1)` is replaced by an explicit supply of draws: the `n`-th
  call of `randint` inside one call of `tick` returns `draws n`.
-/

namespace Tornado

/-! ## Data -/

/-- The value an `int8_t` holds after `x` is stored into it. -/
def wrapInt8 (x : Int) : Int := (x + 128) % 256 - 128

/-- The rows of the animation, `struct Row { int8_t length, offset; ... }`. -/
structure Row where
  length : Int
  offset : Int
deriving DecidableEq

namespace Row

/-- Source: `int midpoint(int width) const { return width / 2 + offset; }`. -/
def midpoint (row : Row) (width : Int) : Int :=
  Int.tdiv width 2 + row.offset

/-- Source: `int left(int width) const { return midpoint(width) - (length / 2); }`. -/
def left (row : Row) (width : Int) : Int :=
  row.midpoint width - Int.tdiv row.length 2

/-- Source: `int right(int width) const { return left(width) + length; }`. -/
def right (row : Row) (width : Int) : Int :=
  row.left width + row.length

end Row

/-- A pixel, `struct Color { uint8_t r = 0, g = 0, b = 0, a = 0; }`. -/
structure Color where
  r : Nat := 0
  g : Nat := 0
  b : Nat := 0
  a : Nat := 0
deriving DecidableEq

/-- The palette, `colorCycle = std::array{150, 150, 200, 200, 90, 90, 60, 90}`, an array of
`int`. -/
def colorCycle : List Int := [150, 150, 200, 200, 90, 90, 60, 90]

/-- The data members of `struct Anim` that the animation logic reads or
writes: `w_`, `h_`, `delay_`, `frameNum_` and `rows_` (the `GifWriter g_`
belongs to the encoder). -/
structure Anim where
  w_ : Int
  h_ : Int
  delay_ : Int
  frameNum_ : Nat
  rows_ : List Row
deriving DecidableEq

/-- The member initialiser `rows_ = { {6}, {6}, {5}, {5}, {4}, {3}, {2}, {1} }`:
each row gets its length, and `offset` is value-initialised to `0`. -/
def initialRows : List Row :=
  [⟨6, 0⟩, ⟨6, 0⟩, ⟨5, 0⟩, ⟨5, 0⟩, ⟨4, 0⟩, ⟨3, 0⟩, ⟨2, 0⟩, ⟨1, 0⟩]

/-- The state after `Anim(width, height, filename, frameDelay)`: the
constructor stores its arguments and calls `GifBegin`; `frameNum_` and `rows_`
take their member initialisers. -/
def Anim.create (width height : Int) (frameDelay : Int) : Anim :=
  { w_ := width, h_ := height, delay_ := frameDelay, frameNum_ := 0, rows_ := initialRows }

/-- The object `main` builds: `Anim a(8, 8, "tornado.gif")`, with the default
`frameDelay = 15`. -/
def initialAnim : Anim := Anim.create 8 8 15

/-! ## `Anim::tick` -/

/-- The lambda `canMove` of `tick`.  `rows[rowNum]` is an unchecked access
and `rows.at(rowNum - 1)`, `rows.at(rowNum + 1)` are checked ones: each gives
`none` when out of range.  `rows.size() - 1` is evaluated after `rows[rowNum]`
succeeded, so `rows.size() ≥ 1` there and the unsigned subtraction does not
wrap. -/
def canMove (rows : List Row) (rowNum : Nat) (distance : Int) (width : Int) : Option Bool :=
  match rows[rowNum]? with
  | none => none
  | some row =>
    let newOffset := row.offset + distance
    -- Check the edge.
    let newLeft := row.left width + distance
    if newLeft < 0 then some false
    else
      let newRight := row.right width + distance
      if newRight ≥ width then some false
      else
        -- Check the row above.
        let aboveFails : Option Bool :=
          if rowNum ≠ 0 then
            match rows[rowNum - 1]? with
            | none => none
            | some above =>
              let differenceWithAbove := above.offset - newOffset
              some (decide (differenceWithAbove > 1 ∨ differenceWithAbove < -1))
          else some false
        match aboveFails with
        | none => none
        | some true => some false
        | some false =>
          -- Check the row below.
          let belowFails : Option Bool :=
            if rowNum < rows.length - 1 then
              match rows[rowNum + 1]? with
              | none => none
              | some below =>
                let differenceWithBelow := below.offset - newOffset
                some (decide (differenceWithBelow > 1 ∨ differenceWithBelow < -1))
            else some false
          match belowFails with
          | none => none
          | some true => some false
          | some false => some true

/-- The loop `for (size_t rowNum = 0; rowNum < rows_.size(); ++rowNum)` of
`tick`, entered at `rowNum` with `remaining = rows_.size() - rowNum` rows still
to scan (`rows_.size()` does not change inside the loop).  Iteration `rowNum`
makes the call number `rowNum` of `randint`.  The result is the row list after
the loop and the number of `randint` calls made. -/
def moveScan (rows : List Row) (width : Int) (draws : Nat → Int) :
    Nat → Nat → Option (List Row × Nat)
  | 0, rowNum => some (rows, rowNum)
  | remaining + 1, rowNum =>
    let distance := draws rowNum
    if distance = 0 then
      moveScan rows width draws remaining (rowNum + 1)   -- continue
    else
      match canMove rows rowNum distance width with
      | none => none
      | some true =>
        -- rows_.at(rowNum).offset += distance; break;
        match rows[rowNum]? with
        | none => none
        | some row =>
          some (rows.set rowNum { row with offset := wrapInt8 (row.offset + distance) },
            rowNum + 1)
      | some false => moveScan rows width draws remaining (rowNum + 1)

/-- What one call of `tick` leaves behind: the new state, the returned
`bool`, and the number of `randint` calls it made. -/
structure TickResult where
  anim : Anim
  ret : Bool
  drawn : Nat
deriving DecidableEq

/-- The member function `bool Anim::tick()`.  `++frameNum_` is reached only with
`frameNum_ ≤ 200`, so the `unsigned long` increment does not wrap. -/
def tick (a : Anim) (draws : Nat → Int) : Option TickResult :=
  if a.frameNum_ > 200 then
    some { anim := a, ret := false, drawn := 0 }
  else
    match moveScan a.rows_ a.w_ draws a.rows_.length 0 with
    | none => none
    | some (rows, drawn) =>
      some { anim := { a with frameNum_ := a.frameNum_ + 1, rows_ := rows },
             ret := true, drawn := drawn }

/-- The state after `n` successive calls of `tick`, the call number `t`
(counted from `0`) drawing from `draws t`. -/
def runTicks (a : Anim) (draws : Nat → Nat → Int) : Nat → Option Anim
  | 0 => some a
  | n + 1 =>
    match runTicks a draws n with
    | none => none
    | some s => (tick s (draws n)).map TickResult.anim

/-! ## `Anim::buildFrame`, `Anim::writeFrame` and `main` -/

/-- The assignment `frame.at(index) = c`.  The index expression
`rowIndex * w_ + i` is evaluated in `size_t`; when its mathematical value is
negative the `size_t` value is at least `2^63` and `at` throws, and otherwise
`at` throws exactly when the value is not below `frame.size()`. -/
def storeAt (frame : List Color) (index : Int) (c : Color) : Option (List Color) :=
  if 0 ≤ index ∧ index < frame.length then some (frame.set index.toNat c) else none

/-- The inner loop `for (auto i = row.left(w_); i < row.right(w_); ++i)` of
`buildFrame`, entered at column `i` with `remaining = row.right(w_) - i`
columns still to write.  The result is the value of `colorIndex` and the
frame after the loop. -/
def paintRow (width : Int) (rowIndex : Nat) :
    Nat → Int → Nat → List Color → Option (Nat × List Color)
  | 0, _, colorIndex, frame => some (colorIndex, frame)
  | remaining + 1, i, colorIndex, frame =>
    let colorIndex := (colorIndex + 1) % colorCycle.length
    let brightness := (colorCycle.getD colorIndex 0 % 256).toNat
    match storeAt frame (rowIndex * width + i)
        { r := brightness, g := brightness, b := brightness } with
    | none => none
    | some frame => paintRow width rowIndex remaining (i + 1) colorIndex frame

/-- The outer loop `for (size_t rowIndex = 0; rowIndex < rows_.size(); ++rowIndex)`
of `buildFrame`, entered at `rowIndex` with the rows from `rows_.at(rowIndex)` on
still to paint. -/
def paintRows (width : Int) : List Row → Nat → Nat → List Color → Option (Nat × List Color)
  | [], _, colorIndex, frame => some (colorIndex, frame)
  | row :: rest, rowIndex, colorIndex, frame =>
    match paintRow width rowIndex (row.right width - row.left width).toNat (row.left width)
        colorIndex frame with
    | none => none
    | some (colorIndex, frame) => paintRows width rest (rowIndex + 1) colorIndex frame

/-- The member function `std::vector<Color> Anim::buildFrame()`.  The size
`w_ * h_` of `std::vector<Color> frame(w_ * h_)` is a product of two `int`s: above
`INT_MAX = 2147483647` it overflows, which is undefined behaviour.  The `int`
product is then converted to `size_t`; for a negative product the requested
size exceeds `max_size()` and the constructor throws. -/
def buildFrame (a : Anim) : Option (List Color) :=
  if 2147483647 < a.w_ * a.h_ then none
  else if a.w_ * a.h_ < 0 then none
  else
    (paintRows a.w_ a.rows_ 0 (a.frameNum_ % colorCycle.length)
      (List.replicate (a.w_ * a.h_).toNat {})).map Prod.snd

/-- The byte vector `frameData` that `writeFrame` builds from a frame. -/
def frameData (frame : List Color) : List Nat :=
  frame.flatMap (fun c => [c.r, c.g, c.b, c.a])

/-- The member function `void Anim::writeFrame()`: the result is the byte buffer passed to
`GifWriteFrame(&g_, frameData.data(), w_, h_, delay_)`. -/
def writeFrame (a : Anim) : Option (List Nat) :=
  (buildFrame a).map frameData

/-- How a run of the driver loop ends. -/
inductive Outcome where
  /-- The call of `tick` returned `false`; the buffers written, oldest first. -/
  | finished (written : List (List Nat))
  /-- An exception left the loop. -/
  | threw
  /-- The loop was still running after the allotted number of iterations. -/
  | running
deriving DecidableEq

/-- The loop `while (a.tick()) a.writeFrame();` of `main`, run for at most
`fuel` evaluations of its condition; `t` counts the calls of `tick` made so
far and `written` holds the buffers written so far. -/
def driverLoop (draws : Nat → Nat → Int) : Nat → Nat → Anim → List (List Nat) → Outcome
  | 0, _, _, _ => Outcome.running
  | fuel + 1, t, a, written =>
    match tick a (draws t) with
    | none => Outcome.threw
    | some res =>
      if res.ret then
        match writeFrame res.anim with
        | none => Outcome.threw
        | some data => driverLoop draws fuel (t + 1) res.anim (written ++ [data])
      else Outcome.finished written

/-- The function `main`: `Anim a(8, 8, "tornado.gif")` followed by the loop, run for at most
`fuel` evaluations of the loop condition. -/
def main (draws : Nat → Nat → Int) (fuel : Nat) : Outcome :=
  driverLoop draws fuel 0 initialAnim []

/-! ## Predicates and functions used to state the properties -/

/-- The conditions under which `canMove` answers `true`, read off its
`return` statements: the moved span has `0 ≤ newLeft` and `newRight < width`,
and the new offset is within one unit of the offset of each existing
neighbour. -/
def MoveAllowed (rows : List Row) (i : Nat) (d w : Int) : Prop :=
  ∃ row, rows[i]? = some row ∧ 0 ≤ row.left w + d ∧ row.right w + d < w ∧
    (∀ above, i ≠ 0 → rows[i - 1]? = some above →
      -1 ≤ above.offset - (row.offset + d) ∧ above.offset - (row.offset + d) ≤ 1) ∧
    (∀ below, rows[i + 1]? = some below →
      -1 ≤ below.offset - (row.offset + d) ∧ below.offset - (row.offset + d) ≤ 1)

/-- Row `i` is one that the scan of `tick` moves when it reaches it: its draw
is not `0` and `canMove` accepts the draw. -/
def Movable (rows : List Row) (w : Int) (draws : Nat → Int) (i : Nat) : Prop :=
  draws i ≠ 0 ∧ canMove rows i (draws i) w = some true

/-- The row list after `rows_.at(i).offset += d`. -/
def moveRow (rows : List Row) (i : Nat) (d : Int) : List Row :=
  match rows[i]? with
  | none => rows
  | some row => rows.set i { row with offset := wrapInt8 (row.offset + d) }

/-- The number of positions at which the offsets of two row lists differ. -/
def changedOffsets (old new : List Row) : Nat :=
  (List.zip old new).countP (fun p => decide (p.1.offset ≠ p.2.offset))

/-- The state property kept by `tick` on the canvas of width `8`: the row
lengths are the initial ones, neighbouring offsets differ by at most `1`, and
every span has `0 ≤ left` and `right < 8`. -/
def TickInvariant (a : Anim) : Prop :=
  a.w_ = 8 ∧ a.rows_.map Row.length = [6, 6, 5, 5, 4, 3, 2, 1] ∧
  (∀ (i : Nat) (r s : Row), a.rows_[i]? = some r → a.rows_[i + 1]? = some s →
    -1 ≤ r.offset - s.offset ∧ r.offset - s.offset ≤ 1) ∧
  (∀ (i : Nat) (r : Row), a.rows_[i]? = some r → 0 ≤ r.left 8 ∧ r.right 8 < 8)

/-- The pixel `buildFrame` writes when `colorIndex` has the value `k`:
`{brightness, brightness, brightness}` with
`brightness = static_cast<uint8_t>(colorCycle[k])`; the member `a` keeps its
default initialiser. -/
def grayPixel (k : Nat) : Color :=
  { r := (colorCycle.getD k 0 % 256).toNat, g := (colorCycle.getD k 0 % 256).toNat,
    b := (colorCycle.getD k 0 % 256).toNat }

/-- The number of columns in the span `[left, right)` of a row. -/
def spanSize (width : Int) (row : Row) : Nat :=
  (row.right width - row.left width).toNat

/-- The number of pixels lit by the first `j` rows. -/
def litBefore (width : Int) (rows : List Row) (j : Nat) : Nat :=
  ((rows.take j).map (spanSize width)).sum

/-- The lit positions `(rowIndex, column)` in scan order: rows top to bottom
from `rowIndex` on, and inside a row the columns of its span `[left, right)`
from left to right. -/
def litPixelsFrom (width : Int) : List Row → Nat → List (Nat × Int)
  | [], _ => []
  | row :: rest, rowIndex =>
    (List.range (spanSize width row)).map (fun (t : Nat) => (rowIndex, row.left width + (t : Int)))
      ++ litPixelsFrom width rest (rowIndex + 1)

/-- The lit positions of a state in scan order. -/
def litPixels (a : Anim) : List (Nat × Int) :=
  litPixelsFrom a.w_ a.rows_ 0

/-- The pixel at `(rowIndex, column)` of a row-major buffer of the given width. -/
def pixelAt (frame : List Color) (width : Int) (rowIndex : Nat) (column : Int) : Option Color :=
  frame[((rowIndex : Int) * width + column).toNat]?

/-- The move validation as the specification words it: the moved span
`[left + d, right + d)` lies within `[0, width)`, that is `0 ≤ left + d` and
`right + d ≤ width`, and the new offset is within one unit of the offset of
the row above and of the row below, where they exist. -/
def canMoveClaimed (rows : List Row) (rowNum : Nat) (d : Int) (width : Int) : Bool :=
  match rows[rowNum]? with
  | none => false
  | some row =>
    let newOffset := row.offset + d
    decide (0 ≤ row.left width + d ∧ row.right width + d ≤ width) &&
    (match (if rowNum = 0 then none else rows[rowNum - 1]?) with
      | none => true
      | some above => decide (-1 ≤ above.offset - newOffset ∧ above.offset - newOffset ≤ 1)) &&
    (match rows[rowNum + 1]? with
      | none => true
      | some below => decide (-1 ≤ below.offset - newOffset ∧ below.offset - newOffset ≤ 1))

/-- The palette scenario of the specification: frame counter `0` and a single
row of length `6` at offset `0` on a canvas of width `8` and height `1`. -/
def paletteScenario : Anim :=
  { w_ := 8, h_ := 1, delay_ := 15, frameNum_ := 0, rows_ := [⟨6, 0⟩] }

/-- The sum of the absolute values of the offsets of a row list. -/
def sumAbsOffsets (rows : List Row) : Nat :=
  (rows.map (fun r => r.offset.natAbs)).sum

/-- The state property kept by `tick` on every canvas when the draws are in
`{-1, 0, 1}`: the row lengths are the initial ones, neighbouring offsets
differ by at most `1`, the absolute offsets add up to at most the frame
counter (one unit per call that moved a row), and the frame counter is at
most `201`. -/
def RunInvariant (a : Anim) : Prop :=
  a.rows_.map Row.length = [6, 6, 5, 5, 4, 3, 2, 1] ∧
  (∀ (i : Nat) (r s : Row), a.rows_[i]? = some r → a.rows_[i + 1]? = some s →
    -1 ≤ r.offset - s.offset ∧ r.offset - s.offset ≤ 1) ∧
  sumAbsOffsets a.rows_ ≤ a.frameNum_ ∧ a.frameNum_ ≤ 201

/-- The variables a call of `buildFrame` can read or assign: the data members of
the object and the locals `frame` and `colorIndex`. -/
structure RenderState where
  anim : Anim
  frame : List Color
  colorIndex : Nat

/-- The inner loop of `buildFrame`, statement by statement on the variables of
the call, entered at column `i`: the test `i < row.right(w_)` reads the row
through the reference `row = rows_.at(rowIndex)` and the member `w_`; the body
assigns `colorIndex` and one element of `frame`.  The loop is run for at most
`fuel` evaluations of its test and gives `none` beyond them, as it does when
`at` throws. -/
def paintRowState (rowIndex : Nat) : Nat → Int → RenderState → Option RenderState
  | 0, _, _ => none
  | fuel + 1, i, st =>
    match st.anim.rows_[rowIndex]? with
    | none => none
    | some row =>
      if i < row.right st.anim.w_ then
        -- colorIndex = (colorIndex + 1) % colorCycle.size();
        let st1 : RenderState :=
          { st with colorIndex := (st.colorIndex + 1) % colorCycle.length }
        -- const auto brightness = static_cast<uint8_t>(colorCycle[colorIndex]);
        let brightness := (colorCycle.getD st1.colorIndex 0 % 256).toNat
        -- frame.at(rowIndex * w_ + i) = {brightness, brightness, brightness};
        match storeAt st1.frame (rowIndex * st1.anim.w_ + i)
            { r := brightness, g := brightness, b := brightness } with
        | none => none
        | some frame => paintRowState rowIndex fuel (i + 1) { st1 with frame := frame }
      else some st

/-- The outer loop of `buildFrame`, statement by statement on the variables of
the call, entered at `rowIndex`: the test `rowIndex < rows_.size()` and the
access `rows_.at(rowIndex)` read the member `rows_`.  The loop is run for at
most `fuel` evaluations of its test. -/
def paintRowsState : Nat → Nat → RenderState → Option RenderState
  | 0, _, _ => none
  | fuel + 1, rowIndex, st =>
    if rowIndex < st.anim.rows_.length then
      match st.anim.rows_[rowIndex]? with
      | none => none
      | some row =>
        match paintRowState rowIndex ((row.right st.anim.w_ - row.left st.anim.w_).toNat + 1)
            (row.left st.anim.w_) st with
        | none => none
        | some st1 => paintRowsState fuel (rowIndex + 1) st1
    else some st

/-- State-passing form of `buildFrame()`: the returned frame together with the
data members as the call leaves them.  The locals start as the source
initialises them: `frame(w_ * h_)` and `colorIndex = frameNum_ % colorCycle.size()`. -/
def buildFrameCall (a : Anim) : Option (List Color × Anim) :=
  if 2147483647 < a.w_ * a.h_ then none
  else if a.w_ * a.h_ < 0 then none
  else
    match paintRowsState (a.rows_.length + 1) 0
        { anim := a, frame := List.replicate (a.w_ * a.h_).toNat {},
          colorIndex := a.frameNum_ % colorCycle.length } with
    | none => none
    | some st => some (st.frame, st.anim)

/-- State-passing form of `writeFrame()`.  The encoder `g_` is represented by
the list of the byte buffers it has received, oldest first; `GifWriteFrame`
appends `frameData` to it.  The data members are those `buildFrame` left. -/
def writeFrameCall (a : Anim) (encoder : List (List Nat)) : Option (Anim × List (List Nat)) :=
  match buildFrameCall a with
  | none => none
  | some (frame, a1) => some (a1, encoder ++ [frameData frame])

/-! ## Lemmas on `canMove` and on the scan of `tick` -/

/-- A value in the range of `int8_t` is stored unchanged. -/
theorem wrapInt8_of_fits (x : Int) (h1 : -128 ≤ x) (h2 : x ≤ 127) : wrapInt8 x = x := by
  unfold wrapInt8
  omega

/-- For a row index in range `canMove` returns, and it returns `true` exactly under the
conditions of `MoveAllowed`. -/
theorem canMove_cases (rows : List Row) (i : Nat) (d w : Int) (hi : i < rows.length) :
    (canMove rows i d w = some true ∧ MoveAllowed rows i d w) ∨
    (canMove rows i d w = some false ∧ ¬ MoveAllowed rows i d w) := by
  have hrow : rows[i]? = some rows[i] := List.getElem?_eq_getElem hi
  unfold MoveAllowed
  unfold canMove
  simp only [hrow]
  by_cases h1 : rows[i].left w + d < 0
  · right
    refine ⟨by simp [h1], ?_⟩
    rintro ⟨row, hr, h, -⟩
    cases hr
    omega
  by_cases h2 : rows[i].right w + d ≥ w
  · right
    refine ⟨by simp [h1, h2], ?_⟩
    rintro ⟨row, hr, -, h, -⟩
    cases hr
    omega
  simp only [h1, h2, if_false]
  by_cases h0 : i ≠ 0
  · have hA : i - 1 < rows.length := by omega
    simp only [h0, if_true, List.getElem?_eq_getElem hA]
    by_cases h3 : rows[i - 1].offset - (rows[i].offset + d) > 1 ∨
        rows[i - 1].offset - (rows[i].offset + d) < -1
    · right
      refine ⟨by simp [h3, h0], ?_⟩
      rintro ⟨row, hr, -, -, h, -⟩
      cases hr
      have := h _ h0 rfl
      omega
    · simp only [h3, decide_False]
      by_cases hb : i < rows.length - 1
      · have hB : i + 1 < rows.length := by omega
        simp only [hb, if_true, List.getElem?_eq_getElem hB]
        by_cases h4 : rows[i + 1].offset - (rows[i].offset + d) > 1 ∨
            rows[i + 1].offset - (rows[i].offset + d) < -1
        · right
          refine ⟨by simp [h4], ?_⟩
          rintro ⟨row, hr, -, -, -, h⟩
          cases hr
          have := h _ rfl
          omega
        · left
          refine ⟨by simp [h4], _, rfl, by omega, by omega, ?_, ?_⟩
          · intro above _ ha
            cases ha
            omega
          · intro below hbl
            cases hbl
            omega
      · left
        have hB : rows[i + 1]? = none := by
          rw [List.getElem?_eq_none_iff]; omega
        refine ⟨by simp [hb], _, rfl, by omega, by omega, ?_, ?_⟩
        · intro above _ ha
          cases ha
          omega
        · intro below hbl
          rw [hB] at hbl
          cases hbl
  · have h0' : i = 0 := by omega
    subst h0'
    simp only [ne_eq, not_true_eq_false, if_false]
    by_cases hb : 0 < rows.length - 1
    · have hB : 0 + 1 < rows.length := by omega
      simp only [hb, if_true, List.getElem?_eq_getElem hB]
      by_cases h4 : rows[0 + 1].offset - (rows[0].offset + d) > 1 ∨
          rows[0 + 1].offset - (rows[0].offset + d) < -1
      · right
        refine ⟨by simp [h4], ?_⟩
        rintro ⟨row, hr, -, -, -, h⟩
        cases hr
        have := h _ rfl
        omega
      · left
        refine ⟨by simp [h4], _, rfl, by omega, by omega, ?_, ?_⟩
        · intro above h
          exact h.elim
        · intro below hbl
          cases hbl
          omega
    · left
      have hB : rows[0 + 1]? = none := by
        rw [List.getElem?_eq_none_iff]; omega
      refine ⟨by simp [hb], _, rfl, by omega, by omega, ?_, ?_⟩
      · intro above h
        exact h.elim
      · intro below hbl
        rw [hB] at hbl
        cases hbl


/-- The moves `canMove` accepts are exactly those of `MoveAllowed`. -/
theorem canMove_eq_true_iff (rows : List Row) (i : Nat) (d w : Int) :
    canMove rows i d w = some true ↔ MoveAllowed rows i d w := by
  by_cases hi : i < rows.length
  · rcases canMove_cases rows i d w hi with ⟨hc, hm⟩ | ⟨hc, hm⟩
    · exact ⟨fun _ => hm, fun _ => hc⟩
    · constructor
      · intro h
        rw [hc] at h
        cases h
      · intro h
        exact absurd h hm
  · have hnone : rows[i]? = none := List.getElem?_eq_none (by omega)
    constructor
    · intro h
      simp only [canMove, hnone] at h
      cases h
    · rintro ⟨row, hrow, -⟩
      rw [hnone] at hrow
      cases hrow

/-- The scan entered at `rowNum` moves the first movable row at or after `rowNum` and stops
there, or finds none and leaves the rows as they are. -/
theorem moveScan_spec (rows : List Row) (w : Int) (draws : Nat → Int) :
    ∀ k rowNum, rowNum + k = rows.length →
      (∃ i, rowNum ≤ i ∧ i < rows.length ∧ Movable rows w draws i ∧
          (∀ j, rowNum ≤ j → j < i → ¬ Movable rows w draws j) ∧
          moveScan rows w draws k rowNum = some (moveRow rows i (draws i), i + 1)) ∨
      ((∀ j, rowNum ≤ j → j < rows.length → ¬ Movable rows w draws j) ∧
          moveScan rows w draws k rowNum = some (rows, rows.length)) := by
  intro k
  induction k with
  | zero =>
    intro rowNum h
    right
    refine ⟨fun j h1 h2 => by omega, ?_⟩
    simp only [moveScan]
    have : rowNum = rows.length := by omega
    rw [this]
  | succ k ih =>
    intro rowNum h
    have hi : rowNum < rows.length := by omega
    have hstep : ¬ Movable rows w draws rowNum →
        moveScan rows w draws (k + 1) rowNum = moveScan rows w draws k (rowNum + 1) := by
      intro hm
      simp only [moveScan]
      by_cases hd : draws rowNum = 0
      · simp [hd]
      · simp only [hd, if_false]
        rcases canMove_cases rows rowNum (draws rowNum) w hi with ⟨hc, -⟩ | ⟨hc, -⟩
        · exact absurd ⟨hd, hc⟩ hm
        · rw [hc]
    by_cases hm : Movable rows w draws rowNum
    · left
      refine ⟨rowNum, le_refl _, hi, hm, fun j h1 h2 => by omega, ?_⟩
      simp only [moveScan, moveRow, hm.1, if_false, hm.2, List.getElem?_eq_getElem hi]
    · rw [hstep hm]
      rcases ih (rowNum + 1) (by omega) with ⟨i, h1, h2, h3, h4, h5⟩ | ⟨h1, h2⟩
      · left
        refine ⟨i, by omega, h2, h3, ?_, h5⟩
        intro j hj1 hj2
        by_cases hj : j = rowNum
        · rw [hj]; exact hm
        · exact h4 j (by omega) hj2
      · right
        refine ⟨?_, h2⟩
        intro j hj1 hj2
        by_cases hj : j = rowNum
        · rw [hj]; exact hm
        · exact h1 j (by omega) hj2


/-- The three ways a call of `tick` ends: the frame counter is above `200`; the first movable
row is moved; no row is movable. -/
theorem tick_cases (a : Anim) (draws : Nat → Int) :
    (a.frameNum_ > 200 ∧ tick a draws = some { anim := a, ret := false, drawn := 0 }) ∨
    (a.frameNum_ ≤ 200 ∧ ∃ i, i < a.rows_.length ∧ Movable a.rows_ a.w_ draws i ∧
      (∀ j, j < i → ¬ Movable a.rows_ a.w_ draws j) ∧
      tick a draws = some
        { anim := { a with frameNum_ := a.frameNum_ + 1, rows_ := moveRow a.rows_ i (draws i) },
          ret := true, drawn := i + 1 }) ∨
    (a.frameNum_ ≤ 200 ∧ (∀ j, j < a.rows_.length → ¬ Movable a.rows_ a.w_ draws j) ∧
      tick a draws = some
        { anim := { a with frameNum_ := a.frameNum_ + 1 }, ret := true,
          drawn := a.rows_.length }) := by
  by_cases hf : a.frameNum_ > 200
  · left
    exact ⟨hf, by simp [tick, hf]⟩
  · right
    have hle : a.frameNum_ ≤ 200 := by omega
    rcases moveScan_spec a.rows_ a.w_ draws a.rows_.length 0 (by omega) with
      ⟨i, -, h2, h3, h4, h5⟩ | ⟨h1, h2⟩
    · left
      refine ⟨hle, i, h2, h3, fun j hj => h4 j (Nat.zero_le _) hj, ?_⟩
      simp [tick, hf, h5]
    · right
      refine ⟨hle, fun j hj => h1 j (Nat.zero_le _) hj, ?_⟩
      simp [tick, hf, h2]

/-- The initial lengths lie between `1` and `6`. -/
theorem row_length_range (a : Anim) (h : a.rows_.map Row.length = [6, 6, 5, 5, 4, 3, 2, 1])
    (i : Nat) (r : Row) (hr : a.rows_[i]? = some r) : 1 ≤ r.length ∧ r.length ≤ 6 := by
  have hm : r.length ∈ a.rows_.map Row.length :=
    List.mem_map.mpr ⟨r, List.getElem?_mem hr, rfl⟩
  rw [h] at hm
  simp at hm
  omega

/-- A move changes no length. -/
theorem map_length_moveRow (rows : List Row) (i : Nat) (d : Int) :
    (moveRow rows i d).map Row.length = rows.map Row.length := by
  unfold moveRow
  cases h : rows[i]? with
  | none => rfl
  | some row =>
    simp only
    apply List.ext_getElem?
    intro j
    simp only [List.getElem?_map, List.getElem?_set]
    by_cases hij : i = j
    · subst hij
      have : i < rows.length := by
        by_contra hc
        rw [List.getElem?_eq_none (by omega)] at h
        cases h
      simp [this, h]
    · simp [hij]

/-- A move changes the offset of the moved row and nothing else. -/
theorem getElem?_moveRow (rows : List Row) (i : Nat) (d : Int) (row : Row)
    (h : rows[i]? = some row) (j : Nat) :
    (moveRow rows i d)[j]? =
      if j = i then some { row with offset := wrapInt8 (row.offset + d) } else rows[j]? := by
  have hi : i < rows.length := by
    by_contra hc
    rw [List.getElem?_eq_none (by omega)] at h
    cases h
  unfold moveRow
  simp only [h, List.getElem?_set]
  by_cases hij : i = j
  · subst hij
    simp [hi]
  · have : ¬ j = i := fun e => hij e.symm
    simp [hij, this]

/-- A move that `canMove` accepts keeps the invariant; the new offset is in the range of
`int8_t`, so the store does not change it. -/
theorem tickInvariant_moveRow (a : Anim) (i : Nat) (d : Int) (hinv : TickInvariant a)
    (hmove : MoveAllowed a.rows_ i d a.w_) :
    TickInvariant { a with frameNum_ := a.frameNum_ + 1, rows_ := moveRow a.rows_ i d } := by
  obtain ⟨hw, hlen, hadj, hin⟩ := hinv
  obtain ⟨row, hrow, hl, hr, habove, hbelow⟩ := hmove
  rw [hw] at hl hr
  have hrl := row_length_range a hlen i row hrow
  have h4 : Int.tdiv 8 2 = 4 := by decide
  have hdiv : Int.tdiv row.length 2 = row.length / 2 :=
    Int.tdiv_eq_ediv (by omega) (by omega)
  have hfit : wrapInt8 (row.offset + d) = row.offset + d := by
    apply wrapInt8_of_fits
    · simp only [Row.left, Row.midpoint, h4, hdiv] at hl
      omega
    · simp only [Row.right, Row.left, Row.midpoint, h4, hdiv] at hr
      omega
  refine ⟨hw, ?_, ?_, ?_⟩
  · simp only [map_length_moveRow]
    exact hlen
  · intro j r s hr1 hr2
    simp only [getElem?_moveRow a.rows_ i d row hrow, hfit] at hr1 hr2
    by_cases hj : j = i
    · subst hj
      have hne : ¬ j + 1 = j := by omega
      simp only [if_true, hne, if_false] at hr1 hr2
      cases hr1
      have := hbelow s hr2
      simp only
      omega
    · by_cases hj' : j + 1 = i
      · simp only [hj, hj', if_true, if_false] at hr1 hr2
        cases hr2
        have hi0 : i ≠ 0 := by omega
        have hji : j = i - 1 := by omega
        rw [hji] at hr1
        have := habove r hi0 hr1
        simp only
        omega
      · simp only [hj, hj', if_false] at hr1 hr2
        exact hadj j r s hr1 hr2
  · intro j r hr1
    simp only [getElem?_moveRow a.rows_ i d row hrow, hfit] at hr1
    by_cases hj : j = i
    · simp only [hj, if_true] at hr1
      cases hr1
      simp only [Row.right, Row.left, Row.midpoint] at hl hr ⊢
      omega
    · simp only [hj, if_false] at hr1
      exact hin j r hr1


/-! ## Lemmas on `buildFrame` -/

/-- The palette has `8` entries. -/
theorem colorCycle_length : colorCycle.length = 8 := rfl

/-- The inner loop of `buildFrame` writes `n` consecutive pixels from index `b` on, stepping
`colorIndex` before each write, and changes no other pixel. -/
theorem paintRow_spec (w : Int) (ri : Nat) :
    ∀ (n : Nat) (i : Int) (ci : Nat) (frame : List Color) (b : Nat),
      (ri : Int) * w + i = b → b + n ≤ frame.length →
      ∃ ci' frame', paintRow w ri n i ci frame = some (ci', frame') ∧
        ci' % 8 = (ci + n) % 8 ∧ frame'.length = frame.length ∧
        ∀ p, frame'[p]? =
          if b ≤ p ∧ p < b + n then some (grayPixel ((ci + (p - b) + 1) % 8)) else frame[p]? := by
  intro n
  induction n with
  | zero =>
    intro i ci frame b _ _
    refine ⟨ci, frame, rfl, rfl, rfl, ?_⟩
    intro p
    have : ¬ (b ≤ p ∧ p < b + 0) := by omega
    rw [if_neg this]
  | succ n ih =>
    intro i ci frame b hb hlen
    have hstore : storeAt frame ((ri : Int) * w + i) (grayPixel ((ci + 1) % 8)) =
        some (frame.set b (grayPixel ((ci + 1) % 8))) := by
      unfold storeAt
      rw [hb]
      have : (0 : Int) ≤ (b : Int) ∧ (b : Int) < (frame.length : Int) := by omega
      simp [this]
    obtain ⟨ci', frame', h1, h2, h3, h4⟩ :=
      ih (i + 1) ((ci + 1) % 8) (frame.set b (grayPixel ((ci + 1) % 8))) (b + 1)
        (by omega) (by simp only [List.length_set]; omega)
    refine ⟨ci', frame', ?_, by omega, by simpa using h3, ?_⟩
    · simp only [paintRow, colorCycle_length]
      have hg : ({ r := (colorCycle.getD ((ci + 1) % 8) 0 % 256).toNat,
                   g := (colorCycle.getD ((ci + 1) % 8) 0 % 256).toNat,
                   b := (colorCycle.getD ((ci + 1) % 8) 0 % 256).toNat } : Color) =
          grayPixel ((ci + 1) % 8) := rfl
      rw [hg, hstore]
      exact h1
    · intro p
      rw [h4 p]
      by_cases hp : p = b
      · subst hp
        have c1 : ¬ (p + 1 ≤ p ∧ p < p + 1 + n) := by omega
        have c2 : p ≤ p ∧ p < p + (n + 1) := by omega
        have hlt : p < frame.length := by omega
        simp only [c1, c2, if_false, if_true, List.getElem?_set, hlt, and_self, Nat.sub_self,
          Nat.add_zero]
      · by_cases hin : b + 1 ≤ p ∧ p < b + 1 + n
        · have c2 : b ≤ p ∧ p < b + (n + 1) := by omega
          have e : ((ci + 1) % 8 + (p - (b + 1)) + 1) % 8 = (ci + (p - b) + 1) % 8 := by omega
          simp only [hin, c2, and_self, if_true, e]
        · have c2 : ¬ (b ≤ p ∧ p < b + (n + 1)) := by omega
          have hne : ¬ b = p := fun e => hp e.symm
          simp only [hin, c2, if_false, List.getElem?_set, hne]

/-- No pixel is lit before row `0`. -/
theorem litBefore_zero (w : Int) (rows : List Row) : litBefore w rows 0 = 0 := by
  simp [litBefore]

/-- The pixels lit before row `j + 1` are those of row `0` and those lit before row `j` of
the remaining rows. -/
theorem litBefore_succ (w : Int) (row : Row) (rest : List Row) (j : Nat) :
    litBefore w (row :: rest) (j + 1) = spanSize w row + litBefore w rest j := by
  simp [litBefore]

/-- The outer loop of `buildFrame`, for rows whose spans lie inside a canvas of width `W`:
line `ri + j` receives the span of row `j`, coloured by the running `colorIndex`, and every
other pixel is unchanged. -/
theorem paintRows_spec (w : Int) (W : Nat) (hw : w = W) :
    ∀ (rows : List Row) (ri ci : Nat) (frame : List Color),
      (∀ r ∈ rows, 0 ≤ r.left w ∧ r.right w ≤ w) →
      (ri + rows.length) * W ≤ frame.length →
      ∃ ci' frame', paintRows w rows ri ci frame = some (ci', frame') ∧
        frame'.length = frame.length ∧
        (∀ p, p < ri * W → frame'[p]? = frame[p]?) ∧
        (∀ p, (ri + rows.length) * W ≤ p → frame'[p]? = frame[p]?) ∧
        (∀ (j : Nat) (r : Row) (c : Nat), rows[j]? = some r → c < W →
          frame'[(ri + j) * W + c]? =
            if r.left w ≤ c ∧ (c : Int) < r.right w then
              some (grayPixel ((ci + litBefore w rows j + (c - (r.left w).toNat) + 1) % 8))
            else frame[(ri + j) * W + c]?) := by
  intro rows
  induction rows with
  | nil =>
    intro ri ci frame _ _
    refine ⟨ci, frame, rfl, rfl, fun _ _ => rfl, fun _ _ => rfl, ?_⟩
    intro j r c hr
    simp at hr
  | cons row rest ih =>
    intro ri ci frame hspan hlen
    obtain ⟨hL, hR⟩ := hspan row (List.mem_cons_self _ _)
    have hmul : (ri + 1) * W = ri * W + W := by ring
    have hmul2 : (ri + (rest.length + 1)) * W = (ri + 1 + rest.length) * W := by
      congr 1; omega
    have hmul3 : (ri + 1 + rest.length) * W = (ri + 1) * W + rest.length * W := by ring
    simp only [List.length_cons] at hlen
    rw [hmul2] at hlen
    have key : ∃ ci1 frame1,
        paintRow w ri (spanSize w row) (row.left w) ci frame = some (ci1, frame1) ∧
        ci1 % 8 = (ci + spanSize w row) % 8 ∧ frame1.length = frame.length ∧
        ∀ p, frame1[p]? =
          if ri * W + (row.left w).toNat ≤ p ∧ p < ri * W + (row.left w).toNat + spanSize w row
          then some (grayPixel ((ci + (p - (ri * W + (row.left w).toNat)) + 1) % 8))
          else frame[p]? := by
      by_cases hn : spanSize w row = 0
      · rw [hn]
        refine ⟨ci, frame, rfl, rfl, rfl, ?_⟩
        intro p
        rw [if_neg (by omega)]
      · apply paintRow_spec
        · subst hw
          push_cast
          omega
        · unfold spanSize at hn ⊢
          subst hw
          omega
    obtain ⟨ci1, frame1, hp1, hci1, hlen1, hget1⟩ := key
    obtain ⟨ci', frame', hp', hlen', hA, hC, hB⟩ :=
      ih (ri + 1) ci1 frame1 (fun r hr => hspan r (List.mem_cons_of_mem _ hr))
        (by rw [hlen1]; exact hlen)
    have hgeo : spanSize w row = 0 ∨
        (row.left w).toNat + spanSize w row = (row.right w).toNat ∧ (row.right w).toNat ≤ W := by
      unfold spanSize
      subst hw
      omega
    refine ⟨ci', frame', ?_, by rw [hlen', hlen1], ?_, ?_, ?_⟩
    · simp only [paintRows]
      have : (row.right w - row.left w).toNat = spanSize w row := rfl
      rw [this, hp1]
      exact hp'
    · intro p hp
      rw [hA p (by omega), hget1 p, if_neg (by omega)]
    · intro p hp
      simp only [List.length_cons] at hp
      rw [hmul2] at hp
      rw [hC p hp, hget1 p, if_neg (by omega)]
    · intro j r c hr hc
      cases j with
      | zero =>
        simp only [List.getElem?_cons_zero, Option.some.injEq] at hr
        subst hr
        rw [Nat.add_zero, hA _ (by omega), hget1, litBefore_zero]
        by_cases hcond : row.left w ≤ c ∧ (c : Int) < row.right w
        · have h1 : ri * W + (row.left w).toNat ≤ ri * W + c ∧
              ri * W + c < ri * W + (row.left w).toNat + spanSize w row := by
            unfold spanSize at hgeo ⊢
            omega
          have e : ri * W + c - (ri * W + (row.left w).toNat) = c - (row.left w).toNat := by
            omega
          rw [if_pos h1, if_pos hcond, e]
          simp only [Nat.add_zero]
        · have h1 : ¬ (ri * W + (row.left w).toNat ≤ ri * W + c ∧
              ri * W + c < ri * W + (row.left w).toNat + spanSize w row) := by
            unfold spanSize at hgeo ⊢
            omega
          rw [if_neg h1, if_neg hcond]
      | succ j =>
        simp only [List.getElem?_cons_succ] at hr
        have hidx : (ri + (j + 1)) * W + c = (ri + 1 + j) * W + c := by
          congr 2; omega
        have hbig : (ri + 1) * W ≤ (ri + 1 + j) * W + c := by
          have : (ri + 1 + j) * W = (ri + 1) * W + j * W := by ring
          omega
        have hnot : ¬ (ri * W + (row.left w).toNat ≤ (ri + 1 + j) * W + c ∧
            (ri + 1 + j) * W + c < ri * W + (row.left w).toNat + spanSize w row) := by
          omega
        rw [hidx, hB j r c hr hc, litBefore_succ, hget1, if_neg hnot]
        have e : (ci1 + litBefore w rest j + (c - (r.left w).toNat) + 1) % 8 =
            (ci + (spanSize w row + litBefore w rest j) + (c - (r.left w).toNat) + 1) % 8 := by
          omega
        rw [e]

/-- The channels of a written pixel: `r = g = b` is the palette entry, which is not `0`,
and `a` is `0`. -/
theorem grayPixel_channels (k : Nat) (hk : k < 8) :
    ((grayPixel k).r : Int) = colorCycle.getD k 0 ∧ (grayPixel k).g = (grayPixel k).r ∧
      (grayPixel k).b = (grayPixel k).r ∧ (grayPixel k).a = 0 ∧ (grayPixel k).r ≠ 0 := by
  interval_cases k <;> decide

/-- The frame `buildFrame` returns, pixel by pixel. -/
theorem buildFrame_spec (a : Anim) (hw : 0 ≤ a.w_)
    (hspan : ∀ r ∈ a.rows_, 0 ≤ r.left a.w_ ∧ r.right a.w_ ≤ a.w_)
    (hrows : (a.rows_.length : Int) ≤ a.h_) (hfits : a.w_ * a.h_ ≤ 2147483647) :
    ∃ frame, buildFrame a = some frame ∧ (frame.length : Int) = a.w_ * a.h_ ∧
      ∀ (j c : Nat), (j : Int) < a.h_ → (c : Int) < a.w_ →
        frame[j * a.w_.toNat + c]? = some
          (match a.rows_[j]? with
            | some r =>
              if r.left a.w_ ≤ c ∧ (c : Int) < r.right a.w_ then
                grayPixel ((a.frameNum_ + litBefore a.w_ a.rows_ j
                  + (c - (r.left a.w_).toNat) + 1) % 8)
              else {}
            | none => {}) := by
  obtain ⟨W, hW⟩ : ∃ W : Nat, a.w_ = W := ⟨a.w_.toNat, by omega⟩
  obtain ⟨H, hH⟩ : ∃ H : Nat, a.h_ = H := ⟨a.h_.toNat, by omega⟩
  have hsize : (a.w_ * a.h_).toNat = W * H := by
    rw [hW, hH, ← Int.natCast_mul, Int.toNat_ofNat]
  have hprod : ¬ a.w_ * a.h_ < 0 := by
    rw [hW, hH, ← Int.natCast_mul]
    omega
  have hrowsH : a.rows_.length ≤ H := by omega
  have hfit : (0 + a.rows_.length) * W ≤ (List.replicate (W * H) ({} : Color)).length := by
    rw [List.length_replicate, Nat.zero_add, Nat.mul_comm W H]
    exact Nat.mul_le_mul_right W hrowsH
  obtain ⟨ci', frame', hp, hlen, -, hC, hB⟩ :=
    paintRows_spec a.w_ W hW a.rows_ 0 (a.frameNum_ % 8) _ hspan hfit
  refine ⟨frame', ?_, ?_, ?_⟩
  · have hover : ¬ 2147483647 < a.w_ * a.h_ := by omega
    simp only [buildFrame, hover, hprod, if_false, hsize, colorCycle_length, hp,
      Option.map_some']
  · rw [hlen, List.length_replicate, hW, hH, Int.natCast_mul]
  · intro j c hj hc
    have hWt : a.w_.toNat = W := by omega
    have hcW : c < W := by omega
    have hjH : j < H := by omega
    have hin : j * W + c < W * H := by
      have h1 : (j + 1) * W ≤ H * W := Nat.mul_le_mul_right W hjH
      have h2 : (j + 1) * W = j * W + W := by ring
      have h3 : H * W = W * H := Nat.mul_comm H W
      omega
    have hbg : (List.replicate (W * H) ({} : Color))[j * W + c]? = some {} := by
      rw [List.getElem?_replicate, if_pos hin]
    rw [hWt]
    cases hr : a.rows_[j]? with
    | none =>
      have hjl : a.rows_.length ≤ j := List.getElem?_eq_none_iff.mp hr
      have h1 : a.rows_.length * W ≤ j * W := Nat.mul_le_mul_right W hjl
      rw [hC (j * W + c) (by rw [Nat.zero_add]; omega), hbg]
    | some r =>
      have := hB j r c hr hcW
      rw [Nat.zero_add] at this
      rw [this, hbg]
      have e : (a.frameNum_ % 8 + litBefore a.w_ a.rows_ j + (c - (r.left a.w_).toNat) + 1) % 8 =
          (a.frameNum_ + litBefore a.w_ a.rows_ j + (c - (r.left a.w_).toNat) + 1) % 8 := by
        omega
      rw [e]
      by_cases hcond : r.left a.w_ ≤ c ∧ (c : Int) < r.right a.w_
      · simp only [hcond, and_self, if_true]
      · simp only [hcond, if_false]

/-- The entry number `k` of the scan order is a column of the span of some row `j'`, and `k`
counts the pixels lit before it. -/
theorem litPixelsFrom_getElem (w : Int) :
    ∀ (rows : List Row) (ri k j : Nat) (c : Int),
      (litPixelsFrom w rows ri)[k]? = some (j, c) →
      ∃ (j' : Nat) (r : Row), j = ri + j' ∧ rows[j']? = some r ∧ r.left w ≤ c ∧ c < r.right w ∧
        k = litBefore w rows j' + (c - r.left w).toNat := by
  intro rows
  induction rows with
  | nil =>
    intro ri k j c h
    simp [litPixelsFrom] at h
  | cons row rest ih =>
    intro ri k j c h
    simp only [litPixelsFrom] at h
    by_cases hk : k < spanSize w row
    · rw [List.getElem?_append_left (by simpa using hk)] at h
      rw [List.getElem?_map, List.getElem?_range hk] at h
      simp only [Option.map_some', Option.some.injEq, Prod.mk.injEq] at h
      obtain ⟨h1, h2⟩ := h
      refine ⟨0, row, by omega, by simp, by omega, ?_, ?_⟩
      · unfold spanSize at hk
        omega
      · rw [litBefore_zero]
        omega
    · rw [List.getElem?_append_right (by simpa using hk)] at h
      simp only [List.length_map, List.length_range] at h
      obtain ⟨j', r, h1, h2, h3, h4, h5⟩ := ih (ri + 1) (k - spanSize w row) j c h
      refine ⟨j' + 1, r, by omega, by simpa using h2, h3, h4, ?_⟩
      rw [litBefore_succ]
      omega

/-- The row-major index of line `j`, column `c` on a canvas of non-negative width. -/
theorem pixelAt_eq (frame : List Color) (w : Int) (hw : 0 ≤ w) (j c : Nat) :
    pixelAt frame w j c = frame[j * w.toNat + c]? := by
  obtain ⟨W, hW⟩ : ∃ W : Nat, w = W := ⟨w.toNat, by omega⟩
  subst hW
  unfold pixelAt
  have e : (j : Int) * (W : Int) + (c : Int) = ((j * W + c : Nat) : Int) := by
    push_cast
    rfl
  rw [e, Int.toNat_ofNat, Int.toNat_ofNat]

/-! ## Lemmas on runs of `tick` and on the driver loop -/

/-- No offset differs between a row list and itself. -/
theorem changedOffsets_self (rows : List Row) : changedOffsets rows rows = 0 := by
  unfold changedOffsets
  induction rows with
  | nil => rfl
  | cons row rest ih =>
    simp only [List.zip_cons_cons, List.countP_cons, ih]
    simp

/-- Replacing one row changes at most one offset. -/
theorem changedOffsets_set (rows : List Row) (i : Nat) (x : Row) :
    changedOffsets rows (rows.set i x) ≤ 1 := by
  induction rows generalizing i with
  | nil => simp [changedOffsets]
  | cons row rest ih =>
    cases i with
    | zero =>
      have h := changedOffsets_self rest
      unfold changedOffsets at h ⊢
      simp only [List.set_cons_zero, List.zip_cons_cons, List.countP_cons, h]
      split_ifs <;> omega
    | succ i =>
      have h := ih i
      unfold changedOffsets at h ⊢
      simp only [List.set_cons_succ, List.zip_cons_cons, List.countP_cons]
      simp only [ne_eq, not_true_eq_false, decide_False, Bool.false_eq_true, if_false] at h ⊢
      omega

/-- A move keeps the number of rows and changes at most one offset. -/
theorem changedOffsets_moveRow (rows : List Row) (i : Nat) (d : Int) :
    (moveRow rows i d).length = rows.length ∧ changedOffsets rows (moveRow rows i d) ≤ 1 := by
  unfold moveRow
  cases rows[i]? with
  | none => exact ⟨rfl, by rw [changedOffsets_self]; omega⟩
  | some row => exact ⟨List.length_set _ _ _, changedOffsets_set _ _ _⟩

/-- A movable row satisfies the conditions of `MoveAllowed`. -/
theorem moveAllowed_of_movable (rows : List Row) (w : Int) (draws : Nat → Int) (i : Nat)
    (hi : i < rows.length) (h : Movable rows w draws i) : MoveAllowed rows i (draws i) w := by
  rcases canMove_cases rows i (draws i) w hi with ⟨-, hm⟩ | ⟨hc, -⟩
  · exact hm
  · rw [h.2] at hc
    cases hc

/-- The invariant holds in the state the constructor builds on a canvas of width `8`. -/
theorem tickInvariant_create (height frameDelay : Int) :
    TickInvariant (Anim.create 8 height frameDelay) := by
  have hoff : ∀ (i : Nat) (r : Row), initialRows[i]? = some r →
      r.offset = 0 ∧ 0 ≤ r.left 8 ∧ r.right 8 < 8 := by
    intro i r hr
    have hm : r ∈ initialRows := List.getElem?_mem hr
    have hall : ∀ r ∈ initialRows, r.offset = 0 ∧ 0 ≤ r.left 8 ∧ r.right 8 < 8 := by decide
    exact hall r hm
  refine ⟨rfl, rfl, ?_, ?_⟩
  · intro i r s hr hs
    have h1 := (hoff i r hr).1
    have h2 := (hoff (i + 1) s hs).1
    omega
  · intro i r hr
    exact (hoff i r hr).2

/-- The call `tick` returns in a state that satisfies the invariant, and keeps the invariant. -/
theorem tick_keeps_invariant (a : Anim) (draws : Nat → Int) (hinv : TickInvariant a) :
    ∃ res, tick a draws = some res ∧ TickInvariant res.anim ∧ res.anim.h_ = a.h_ ∧
      res.ret = decide (a.frameNum_ ≤ 200) ∧
      res.anim.frameNum_ = (if a.frameNum_ ≤ 200 then a.frameNum_ + 1 else a.frameNum_) ∧
      (200 < a.frameNum_ → res.anim = a) := by
  rcases tick_cases a draws with ⟨hf, ht⟩ | ⟨hf, i, hi, hm, -, ht⟩ | ⟨hf, -, ht⟩
  · refine ⟨_, ht, hinv, rfl, ?_, ?_, fun _ => rfl⟩
    · simp only [decide_eq_false (show ¬ a.frameNum_ ≤ 200 by omega)]
    · rw [if_neg (by omega)]
  · refine ⟨_, ht, tickInvariant_moveRow a i (draws i) hinv
      (moveAllowed_of_movable _ _ _ _ hi hm), rfl, ?_, ?_, fun h => by omega⟩
    · simp only [decide_eq_true hf]
    · rw [if_pos hf]
  · refine ⟨_, ht, hinv, rfl, ?_, ?_, fun h => by omega⟩
    · simp only [decide_eq_true hf]
    · rw [if_pos hf]

/-- After `n` calls of `tick` from the initial state the invariant holds and the frame
counter is `min n 201`. -/
theorem runTicks_spec (height frameDelay : Int) (draws : Nat → Nat → Int) (n : Nat) :
    ∃ s, runTicks (Anim.create 8 height frameDelay) draws n = some s ∧ TickInvariant s ∧
      s.h_ = height ∧ s.frameNum_ = min n 201 := by
  induction n with
  | zero => exact ⟨_, rfl, tickInvariant_create _ _, rfl, rfl⟩
  | succ n ih =>
    obtain ⟨s, hs, hinv, hh, hf⟩ := ih
    obtain ⟨res, hr, hinv', hh', -, hf', -⟩ := tick_keeps_invariant s (draws n) hinv
    refine ⟨res.anim, ?_, hinv', by rw [hh', hh], ?_⟩
    · simp only [runTicks, hs, hr, Option.map_some']
    · rw [hf', hf]
      split_ifs <;> omega

/-- On the `8 × 8` canvas `buildFrame` returns in every state that satisfies the invariant. -/
theorem buildFrame_of_invariant (a : Anim) (hinv : TickInvariant a) (hh : a.h_ = 8) :
    ∃ frame, buildFrame a = some frame ∧ frame.length = 64 := by
  obtain ⟨hw, hlen, -, hin⟩ := hinv
  have hl : a.rows_.length = 8 := by
    have := congrArg List.length hlen
    simpa using this
  obtain ⟨frame, hf, hsz, -⟩ := buildFrame_spec a (by omega)
    (by
      intro r hr
      obtain ⟨i, hi⟩ := List.getElem?_of_mem hr
      have := hin i r hi
      rw [hw]
      omega)
    (by omega) (by rw [hw, hh]; decide)
  refine ⟨frame, hf, ?_⟩
  rw [hw, hh] at hsz
  omega

/-- The driver loop entered with `k` frames still to come writes `k` more frames and ends. -/
theorem driverLoop_spec (draws : Nat → Nat → Int) :
    ∀ (k fuel t : Nat) (a : Anim) (written : List (List Nat)),
      TickInvariant a → a.h_ = 8 → a.frameNum_ + k = 201 → k < fuel →
      ∃ out, driverLoop draws fuel t a written = Outcome.finished out ∧
        out.length = written.length + k := by
  intro k
  induction k with
  | zero =>
    intro fuel t a written hinv _ hf hfuel
    obtain ⟨fuel, rfl⟩ : ∃ f, fuel = f + 1 := ⟨fuel - 1, by omega⟩
    obtain ⟨res, hr, -, -, hret, -, -⟩ := tick_keeps_invariant a (draws t) hinv
    rw [decide_eq_false (show ¬ a.frameNum_ ≤ 200 by omega)] at hret
    refine ⟨written, ?_, rfl⟩
    simp only [driverLoop, hr, hret, Bool.false_eq_true, if_false]
  | succ k ih =>
    intro fuel t a written hinv hh hf hfuel
    obtain ⟨fuel, rfl⟩ : ∃ f, fuel = f + 1 := ⟨fuel - 1, by omega⟩
    obtain ⟨res, hr, hinv', hh', hret, hf', -⟩ := tick_keeps_invariant a (draws t) hinv
    rw [decide_eq_true (show a.frameNum_ ≤ 200 by omega)] at hret
    rw [if_pos (by omega)] at hf'
    obtain ⟨frame, hframe, -⟩ := buildFrame_of_invariant res.anim hinv' (by rw [hh', hh])
    obtain ⟨out, hout, hlen⟩ := ih fuel (t + 1) res.anim (written ++ [frameData frame]) hinv'
      (by rw [hh', hh]) (by omega) (by omega)
    refine ⟨out, ?_, ?_⟩
    · simp only [driverLoop, hr, hret, if_true, writeFrame, hframe, Option.map_some']
      exact hout
    · rw [hlen, List.length_append]
      simp only [List.length_singleton]
      omega

/-! ## The invariant of `tick` on an arbitrary canvas -/

/-- Replacing a row changes the sum of the absolute offsets by the difference of the two
absolute offsets. -/
theorem sumAbsOffsets_set (rows : List Row) (i : Nat) (row x : Row)
    (h : rows[i]? = some row) :
    sumAbsOffsets (rows.set i x) + row.offset.natAbs = sumAbsOffsets rows + x.offset.natAbs := by
  induction rows generalizing i with
  | nil => simp at h
  | cons r rest ih =>
    cases i with
    | zero =>
      simp only [List.getElem?_cons_zero, Option.some.injEq] at h
      subst h
      simp only [sumAbsOffsets, List.set_cons_zero, List.map_cons, List.sum_cons]
      omega
    | succ i =>
      simp only [List.getElem?_cons_succ] at h
      have := ih i h
      simp only [sumAbsOffsets, List.set_cons_succ, List.map_cons, List.sum_cons] at this ⊢
      omega

/-- In a state that satisfies the invariant every offset lies in `[-28, 28]`: the eight
offsets are chained by steps of at most `1` and their absolute values add up to at most
`201`. -/
theorem offsets_bounded (a : Anim) (hinv : RunInvariant a) (i : Nat) (r : Row)
    (hr : a.rows_[i]? = some r) : -28 ≤ r.offset ∧ r.offset ≤ 28 := by
  obtain ⟨hlen, hadj, hsum, hf⟩ := hinv
  obtain ⟨r0, r1, r2, r3, r4, r5, r6, r7, hrows⟩ :
      ∃ r0 r1 r2 r3 r4 r5 r6 r7, a.rows_ = [r0, r1, r2, r3, r4, r5, r6, r7] := by
    have hl : a.rows_.length = 8 := by
      have := congrArg List.length hlen
      simpa using this
    match hm : a.rows_, hl with
    | [r0, r1, r2, r3, r4, r5, r6, r7], _ => exact ⟨r0, r1, r2, r3, r4, r5, r6, r7, rfl⟩
  rw [hrows] at hadj hsum hr
  have h01 := hadj 0 r0 r1 rfl rfl
  have h12 := hadj 1 r1 r2 rfl rfl
  have h23 := hadj 2 r2 r3 rfl rfl
  have h34 := hadj 3 r3 r4 rfl rfl
  have h45 := hadj 4 r4 r5 rfl rfl
  have h56 := hadj 5 r5 r6 rfl rfl
  have h67 := hadj 6 r6 r7 rfl rfl
  simp only [sumAbsOffsets, List.map_cons, List.map_nil, List.sum_cons, List.sum_nil] at hsum
  have hi : i < 8 := by
    by_contra hc
    rw [List.getElem?_eq_none (by simp; omega)] at hr
    cases hr
  interval_cases i <;> simp only [List.getElem?_cons_succ, List.getElem?_cons_zero,
    Option.some.injEq] at hr <;> subst hr <;> omega

/-- The invariant holds in the state the constructor builds, whatever the canvas. -/
theorem runInvariant_create (width height frameDelay : Int) :
    RunInvariant (Anim.create width height frameDelay) := by
  have hoff : ∀ r ∈ initialRows, r.offset = 0 := by decide
  have hsum : sumAbsOffsets initialRows = 0 := by decide
  refine ⟨rfl, ?_, Nat.le_of_eq hsum, Nat.zero_le _⟩
  intro i r s hr hs
  have h1 := hoff r (List.getElem?_mem hr)
  have h2 := hoff s (List.getElem?_mem hs)
  omega

/-- A call of `tick` with draws in `{-1, 0, 1}` keeps the invariant; the offset it stores is
the exact sum, because the offsets stay far from the limits of `int8_t`. -/
theorem tick_keeps_runInvariant (a : Anim) (draws : Nat → Int)
    (hdraws : ∀ i, draws i = -1 ∨ draws i = 0 ∨ draws i = 1) (hinv : RunInvariant a) :
    ∃ res, tick a draws = some res ∧ RunInvariant res.anim ∧ res.anim.w_ = a.w_ ∧
      res.anim.h_ = a.h_ ∧ res.anim.delay_ = a.delay_ ∧
      res.anim.frameNum_ = (if a.frameNum_ ≤ 200 then a.frameNum_ + 1 else a.frameNum_) := by
  rcases tick_cases a draws with ⟨hf, ht⟩ | ⟨hf, i, hi, hm, -, ht⟩ | ⟨hf, -, ht⟩
  · exact ⟨_, ht, hinv, rfl, rfl, rfl, by rw [if_neg (by omega)]⟩
  · refine ⟨_, ht, ?_, rfl, rfl, rfl, by rw [if_pos hf]⟩
    obtain ⟨row, hrow, -, -, habove, hbelow⟩ := moveAllowed_of_movable _ _ _ _ hi hm
    have hb := offsets_bounded a hinv i row hrow
    obtain ⟨hlen, hadj, hsum, -⟩ := hinv
    have hd : draws i = -1 ∨ draws i = 1 := by
      rcases hdraws i with h | h | h
      · exact Or.inl h
      · exact absurd h hm.1
      · exact Or.inr h
    have hfit : wrapInt8 (row.offset + draws i) = row.offset + draws i :=
      wrapInt8_of_fits _ (by omega) (by omega)
    refine ⟨by simp only [map_length_moveRow]; exact hlen, ?_, ?_, by simp only; omega⟩
    · intro j r s hr1 hr2
      simp only [getElem?_moveRow a.rows_ i (draws i) row hrow, hfit] at hr1 hr2
      by_cases hj : j = i
      · subst hj
        have hne : ¬ j + 1 = j := by omega
        simp only [if_true, hne, if_false] at hr1 hr2
        cases hr1
        have := hbelow s hr2
        simp only
        omega
      · by_cases hj' : j + 1 = i
        · simp only [hj, hj', if_true, if_false] at hr1 hr2
          cases hr2
          have hi0 : i ≠ 0 := by omega
          have hji : j = i - 1 := by omega
          rw [hji] at hr1
          have := habove r hi0 hr1
          simp only
          omega
        · simp only [hj, hj', if_false] at hr1 hr2
          exact hadj j r s hr1 hr2
    · have hset := sumAbsOffsets_set a.rows_ i row
        { row with offset := wrapInt8 (row.offset + draws i) } hrow
      have hmv : moveRow a.rows_ i (draws i) =
          a.rows_.set i { row with offset := wrapInt8 (row.offset + draws i) } := by
        simp only [moveRow, hrow]
      simp only [hmv, hfit] at hset ⊢
      omega
  · obtain ⟨hlen, hadj, hsum, -⟩ := hinv
    exact ⟨_, ht, ⟨hlen, hadj, by simp only; omega, by simp only; omega⟩, rfl, rfl, rfl,
      by rw [if_pos hf]⟩

/-- After `n` calls of `tick` on an object built with any canvas, with draws in `{-1, 0, 1}`,
the invariant holds, the canvas is the one passed to the constructor and the frame counter
is `min n 201`. -/
theorem runTicks_any_canvas (width height frameDelay : Int) (draws : Nat → Nat → Int)
    (hdraws : ∀ t i, draws t i = -1 ∨ draws t i = 0 ∨ draws t i = 1) (n : Nat) :
    ∃ s, runTicks (Anim.create width height frameDelay) draws n = some s ∧ RunInvariant s ∧
      s.w_ = width ∧ s.h_ = height ∧ s.frameNum_ = min n 201 := by
  induction n with
  | zero => exact ⟨_, rfl, runInvariant_create _ _ _, rfl, rfl, rfl⟩
  | succ n ih =>
    obtain ⟨s, hs, hinv, hw, hh, hf⟩ := ih
    obtain ⟨res, hr, hinv', hw', hh', -, hf'⟩ := tick_keeps_runInvariant s (draws n) (hdraws n) hinv
    refine ⟨res.anim, ?_, hinv', by rw [hw', hw], by rw [hh', hh], ?_⟩
    · simp only [runTicks, hs, hr, Option.map_some']
    · rw [hf', hf]
      split_ifs <;> omega

/-! ## The properties of `tick` -/

/-- C1, adjacency invariant.  After any number `n` of calls of `tick` from the
initial state on a canvas of width `8` (rows of lengths 6, 6, 5, 5, 4, 3, 2, 1,
all offsets `0`), whatever the draws (any integers, so in particular any values
in `{-1, 0, 1}`), the calls all return and the offsets of vertically adjacent
rows `i`, `i + 1` differ by at most `1`. -/
theorem adjacency_invariant (height frameDelay : Int) (draws : Nat → Nat → Int) (n : Nat) :
    ∃ s, runTicks (Anim.create 8 height frameDelay) draws n = some s ∧
      ∀ (i : Nat) (r r' : Row), s.rows_[i]? = some r → s.rows_[i + 1]? = some r' →
        |r.offset - r'.offset| ≤ 1 := by
  obtain ⟨s, hs, ⟨-, -, hadj, -⟩, -, -⟩ := runTicks_spec height frameDelay draws n
  refine ⟨s, hs, ?_⟩
  intro i r r' hr hr'
  have := hadj i r r' hr hr'
  rw [abs_le]
  omega

/-- C2, boundary invariant.  After any number `n` of calls of `tick` from the
initial state on a canvas of width `8`, whatever the draws, the width is still
`8` and every row has `0 ≤ left(width)` and `right(width) ≤ width`, with
`left` and `right` the member functions of `Row`. -/
theorem boundary_invariant (height frameDelay : Int) (draws : Nat → Nat → Int) (n : Nat) :
    ∃ s, runTicks (Anim.create 8 height frameDelay) draws n = some s ∧ s.w_ = 8 ∧
      ∀ r ∈ s.rows_, 0 ≤ r.left s.w_ ∧ r.right s.w_ ≤ s.w_ := by
  obtain ⟨s, hs, ⟨hw, -, -, hin⟩, -, -⟩ := runTicks_spec height frameDelay draws n
  refine ⟨s, hs, hw, ?_⟩
  intro r hr
  obtain ⟨i, hi⟩ := List.getElem?_of_mem hr
  have := hin i r hi
  rw [hw]
  omega

/-- C3, at most one move per step.  For every state and every supply of draws,
`tick` returns, the row list keeps its length, and the number of rows whose
offset differs from its value before the call is at most one. -/
theorem tick_changes_at_most_one_offset (a : Anim) (draws : Nat → Int) :
    ∃ res, tick a draws = some res ∧ res.anim.rows_.length = a.rows_.length ∧
      changedOffsets a.rows_ res.anim.rows_ ≤ 1 := by
  rcases tick_cases a draws with ⟨-, ht⟩ | ⟨-, i, -, -, -, ht⟩ | ⟨-, -, ht⟩
  · exact ⟨_, ht, rfl, by rw [changedOffsets_self]; omega⟩
  · exact ⟨_, ht, (changedOffsets_moveRow _ _ _).1, (changedOffsets_moveRow _ _ _).2⟩
  · exact ⟨_, ht, rfl, by rw [changedOffsets_self]; omega⟩

/-- The scan order of `tick` in any state.  A call of `tick` with the frame counter
at most `200` returns `true`.  If `i` is the smallest row index whose draw
`draws i` is not `0` and is accepted by `canMove` on the offsets before the
call, then the row list after the call is the one before it with
`offset += draws i` applied to row `i` alone (the `int8_t` store of
`offset + draws i`, which is `offset + draws i` itself whenever that sum lies
in `[-128, 127]`), and exactly `i + 1` draws were made, none for a row after
`i`.  If there is no such row, the row list is unchanged and one draw was made
for each row. -/
theorem tick_scan_any_state (a : Anim) (draws : Nat → Int)
    (hlive : a.frameNum_ ≤ 200) :
    ∃ res, tick a draws = some res ∧ res.ret = true ∧
      (∀ (i : Nat) (row : Row), a.rows_[i]? = some row → Movable a.rows_ a.w_ draws i →
        (∀ j, j < i → ¬ Movable a.rows_ a.w_ draws j) →
        res.anim.rows_ = a.rows_.set i { row with offset := wrapInt8 (row.offset + draws i) } ∧
        (-128 ≤ row.offset + draws i → row.offset + draws i ≤ 127 →
          res.anim.rows_ = a.rows_.set i { row with offset := row.offset + draws i }) ∧
        res.drawn = i + 1) ∧
      ((∀ i, i < a.rows_.length → ¬ Movable a.rows_ a.w_ draws i) →
        res.anim.rows_ = a.rows_ ∧ res.drawn = a.rows_.length) := by
  rcases tick_cases a draws with ⟨hf, -⟩ | ⟨-, i, hi, hm, hfirst, ht⟩ | ⟨-, hnone, ht⟩
  · omega
  · refine ⟨_, ht, rfl, ?_, ?_⟩
    · intro i' row hrow hm' hfirst'
      have hi' : i' < a.rows_.length := by
        by_contra hc
        rw [List.getElem?_eq_none (by omega)] at hrow
        cases hrow
      have heq : i' = i := by
        rcases Nat.lt_trichotomy i' i with h | h | h
        · exact absurd hm' (hfirst i' h)
        · exact h
        · exact absurd hm (hfirst' i h)
      subst heq
      have hrows : moveRow a.rows_ i' (draws i') =
          a.rows_.set i' { row with offset := wrapInt8 (row.offset + draws i') } := by
        simp only [moveRow, hrow]
      refine ⟨hrows, ?_, rfl⟩
      intro h1 h2
      simp only [hrows, wrapInt8_of_fits _ h1 h2]
    · intro hnone
      exact absurd hm (hnone i hi)
  · refine ⟨_, ht, rfl, ?_, fun _ => ⟨rfl, rfl⟩⟩
    intro i row hrow hm _
    have hi : i < a.rows_.length := by
      by_contra hc
      rw [List.getElem?_eq_none (by omega)] at hrow
      cases hrow
    exact absurd hm (hnone i hi)

/-- C4, move selection by scan order.  Take an object built on any canvas and
any supply of draws in `{-1, 0, 1}`; let `s` be its state after `n ≤ 200`
calls of `tick`.  The next call of `tick` returns `true`.  If `i` is the
smallest row index whose draw `d_i` is not `0` and is accepted by `canMove` on
the offsets of `s`, then the row list after the call is that of `s` with
`d_i` added to the offset of row `i` alone, and exactly `i + 1` draws were
made, none for a row after `i`.  If there is no such row, the row list is
unchanged and one draw was made for each row. -/
theorem tick_moves_first_movable_row (width height frameDelay : Int) (draws : Nat → Nat → Int)
    (hdraws : ∀ t i, draws t i = -1 ∨ draws t i = 0 ∨ draws t i = 1) (n : Nat) (hn : n ≤ 200) :
    ∃ s res, runTicks (Anim.create width height frameDelay) draws n = some s ∧
      tick s (draws n) = some res ∧ res.ret = true ∧
      (∀ (i : Nat) (row : Row), s.rows_[i]? = some row → Movable s.rows_ s.w_ (draws n) i →
        (∀ j, j < i → ¬ Movable s.rows_ s.w_ (draws n) j) →
        res.anim.rows_ = s.rows_.set i { row with offset := row.offset + draws n i } ∧
        res.drawn = i + 1) ∧
      ((∀ i, i < s.rows_.length → ¬ Movable s.rows_ s.w_ (draws n) i) →
        res.anim.rows_ = s.rows_ ∧ res.drawn = s.rows_.length) := by
  obtain ⟨s, hs, hinv, -, -, hf⟩ := runTicks_any_canvas width height frameDelay draws hdraws n
  obtain ⟨res, hr, hret, hmove, hnone⟩ := tick_scan_any_state s (draws n) (by omega)
  refine ⟨s, res, hs, hr, hret, ?_, hnone⟩
  intro i row hrow hm hfirst
  obtain ⟨-, hexact, hdrawn⟩ := hmove i row hrow hm hfirst
  have hb := offsets_bounded s hinv i row hrow
  have hd := hdraws n i
  exact ⟨hexact (by omega) (by omega), hdrawn⟩

/-- Witness of C4: the object of `main` with every draw equal to `+1`, at its
first call of `tick`: rows `0` to `3` cannot move and row `4` can; the call
returns `true`, moves row `4` to offset `1`, leaves the other rows as they were
and makes `5` draws. -/
theorem tick_moves_first_movable_row_witness :
    ((∀ t i : Nat, (fun _ _ => (1 : Int)) t i = -1 ∨ (fun _ _ => (1 : Int)) t i = 0 ∨
        (fun _ _ => (1 : Int)) t i = 1) ∧ (0 : Nat) ≤ 200) ∧
    ∃ s res, runTicks (Anim.create 8 8 15) (fun _ _ => 1) 0 = some s ∧
      tick s (fun _ => 1) = some res ∧ res.ret = true ∧
      res.anim.rows_ = [⟨6, 0⟩, ⟨6, 0⟩, ⟨5, 0⟩, ⟨5, 0⟩, ⟨4, 1⟩, ⟨3, 0⟩, ⟨2, 0⟩, ⟨1, 0⟩] ∧
      res.drawn = 5 := by
  refine ⟨⟨fun _ _ => Or.inr (Or.inr rfl), by decide⟩, ?_⟩
  obtain ⟨s, res, h0, h1, h2, h3, -⟩ :=
    tick_moves_first_movable_row 8 8 15 (fun _ _ => 1) (fun _ _ => Or.inr (Or.inr rfl)) 0
      (by decide)
  have hs : s = initialAnim := by
    simp only [runTicks, Option.some.injEq] at h0
    exact h0.symm
  subst hs
  have hm : Movable initialAnim.rows_ initialAnim.w_ (fun _ => 1) 4 := by
    unfold Movable
    decide
  have hfirst : ∀ j, j < 4 → ¬ Movable initialAnim.rows_ initialAnim.w_ (fun _ => 1) j := by
    intro j hj
    unfold Movable
    interval_cases j <;> decide
  obtain ⟨h5, h6⟩ := h3 4 ⟨4, 0⟩ rfl hm hfirst
  exact ⟨initialAnim, res, rfl, h1, h2, h5, h6⟩

/-- C5, move validation.  In the initial state on the canvas of width `8`, the
move of row `0` by `+1` gives the span `[2, 8)`, which lies within `[0, 8)`,
and keeps the row within one unit of the row below: the validation as the
specification words it accepts the move, and `canMove` rejects it, because its
edge test is `newRight >= width`.  The mirror move by `-1`, whose span `[0, 6)`
reaches the left edge, is accepted. -/
theorem canMove_rejects_span_reaching_right_edge :
    canMoveClaimed initialRows 0 1 8 = true ∧ canMove initialRows 0 1 8 = some false ∧
      initialRows.head?.map (fun r => (r.left 8 + 1, r.right 8 + 1)) = some (2, 8) ∧
      canMove initialRows 0 (-1) 8 = some true ∧
      initialRows.head?.map (fun r => (r.left 8 - 1, r.right 8 - 1)) = some (0, 6) := by
  decide

/-- C6, step result and atomicity.  For every state and every supply of
draws, `tick` returns; it returns `false` exactly when the frame counter is
greater than `200` before the call; when it returns `false` the whole state
(frame counter and rows included) is unchanged, and when it returns `true` the
frame counter is one greater than before. -/
theorem tick_result_and_atomicity (a : Anim) (draws : Nat → Int) :
    ∃ res, tick a draws = some res ∧ (res.ret = false ↔ a.frameNum_ > 200) ∧
      (res.ret = false → res.anim = a) ∧
      (res.ret = true → res.anim.frameNum_ = a.frameNum_ + 1) := by
  rcases tick_cases a draws with ⟨hf, ht⟩ | ⟨hf, i, -, -, -, ht⟩ | ⟨hf, -, ht⟩
  · exact ⟨_, ht, ⟨fun _ => hf, fun _ => rfl⟩, fun _ => rfl, fun h => by simp at h⟩
  · refine ⟨_, ht, ⟨fun h => by simp at h, fun h => by omega⟩, fun h => by simp at h,
      fun _ => rfl⟩
  · refine ⟨_, ht, ⟨fun h => by simp at h, fun h => by omega⟩, fun h => by simp at h,
      fun _ => rfl⟩

/-- C7 as stated fails: with every draw `0`, the 201st call of `tick` (the
call made after `200` calls) returns `true`, and the driver loop writes `201`
frames. -/
theorem tick_call_201_returns_true :
    (∃ s res, runTicks initialAnim (fun _ _ => 0) 200 = some s ∧
      tick s (fun _ => 0) = some res ∧ res.ret = true) ∧
    (∃ written, main (fun _ _ => 0) 202 = Outcome.finished written ∧
      written.length = 201) := by
  constructor
  · obtain ⟨s, hs, hinv, -, hf⟩ := runTicks_spec 8 15 (fun _ _ => 0) 200
    obtain ⟨res, hr, -, -, hret, -, -⟩ := tick_keeps_invariant s (fun _ => 0) hinv
    refine ⟨s, res, hs, hr, ?_⟩
    rw [hret, hf]
    decide
  · obtain ⟨out, h1, h2⟩ := driverLoop_spec (fun _ _ => 0) 201 202 0 initialAnim []
      (tickInvariant_create 8 15) rfl rfl (by omega)
    exact ⟨out, h1, by simpa using h2⟩

/-- C7 amended, frame budget.  From the initial state and for every supply of
draws: the call of `tick` made after `n` earlier calls returns `true` when
`n ≤ 200` and `false` when `n > 200`, so the first `201` calls return `true`,
the 202nd call returns `false` and so does every later call, each leaving the
state unchanged; and the driver loop of `main`, given room for at least `202`
evaluations of its condition, ends with exactly `201` frames written. -/
theorem frame_budget (draws : Nat → Nat → Int) :
    (∀ n, ∃ s res, runTicks initialAnim draws n = some s ∧ tick s (draws n) = some res ∧
      res.ret = decide (n ≤ 200) ∧ (200 < n → res.anim = s)) ∧
    (∀ k, ∃ written, main draws (202 + k) = Outcome.finished written ∧
      written.length = 201) := by
  constructor
  · intro n
    obtain ⟨s, hs, hinv, -, hf⟩ := runTicks_spec 8 15 draws n
    obtain ⟨res, hr, -, -, hret, -, hsame⟩ := tick_keeps_invariant s (draws n) hinv
    refine ⟨s, res, hs, hr, ?_, ?_⟩
    · rw [hret, hf]
      by_cases hn : n ≤ 200
      · simp only [decide_eq_true hn, decide_eq_true_eq]
        omega
      · simp only [decide_eq_false hn, decide_eq_false_iff_not]
        omega
    · intro hn
      exact hsame (by omega)
  · intro k
    obtain ⟨out, h1, h2⟩ := driverLoop_spec draws 201 (202 + k) 0 initialAnim []
      (tickInvariant_create 8 15) rfl rfl (by omega)
    exact ⟨out, h1, by simpa using h2⟩

/-! ## The properties of `buildFrame` -/

/-- C8, palette cycling.  For a state whose canvas width is not negative,
whose canvas size `w_ * h_` does not overflow an `int`, whose spans lie inside
the canvas (`0 ≤ left`, `right ≤ width`) and which has no more rows than the
canvas has lines, `buildFrame` returns a frame in which
the `k`-th lit pixel in scan order (`k` counted from `1` through all rows) has
`r = g = b = colorCycle[(frameNum_ + k) mod 8]`. -/
theorem palette_cycling (a : Anim) (hw : 0 ≤ a.w_)
    (hspan : ∀ r ∈ a.rows_, 0 ≤ r.left a.w_ ∧ r.right a.w_ ≤ a.w_)
    (hrows : (a.rows_.length : Int) ≤ a.h_) (hfits : a.w_ * a.h_ ≤ 2147483647) :
    ∃ frame, buildFrame a = some frame ∧
      ∀ (k j : Nat) (c : Int), 1 ≤ k → (litPixels a)[k - 1]? = some (j, c) →
        ∃ px, pixelAt frame a.w_ j c = some px ∧
          (px.r : Int) = colorCycle.getD ((a.frameNum_ + k) % 8) 0 ∧
          px.g = px.r ∧ px.b = px.r := by
  obtain ⟨frame, hf, -, hpix⟩ := buildFrame_spec a hw hspan hrows hfits
  refine ⟨frame, hf, ?_⟩
  intro k j c hk hlit
  obtain ⟨j', r, hj, hr, hl, hrt, hkk⟩ := litPixelsFrom_getElem a.w_ a.rows_ 0 (k - 1) j c hlit
  rw [Nat.zero_add] at hj
  subst hj
  have hjlen : j < a.rows_.length := by
    by_contra hc
    rw [List.getElem?_eq_none (by omega)] at hr
    cases hr
  have hrin := hspan r (List.getElem?_mem hr)
  obtain ⟨C, hC⟩ : ∃ C : Nat, c = C := ⟨c.toNat, by omega⟩
  subst hC
  have := hpix j C (by omega) (by omega)
  simp only [hr] at this
  rw [if_pos ⟨hl, hrt⟩] at this
  have e : (a.frameNum_ + litBefore a.w_ a.rows_ j + (C - (r.left a.w_).toNat) + 1) % 8 =
      (a.frameNum_ + k) % 8 := by
    congr 1
    omega
  rw [e] at this
  have hch := grayPixel_channels ((a.frameNum_ + k) % 8) (Nat.mod_lt _ (by decide))
  exact ⟨_, by rw [pixelAt_eq _ _ hw]; exact this, hch.1, hch.2.1, hch.2.2.1⟩

/-- Witness of C8, the palette scenario: with frame counter `0` and one row
of length `6` at offset `0` on the canvas of width `8` and height `1`, the
brightness of columns `0` to `7` is `0, colorCycle[1], ..., colorCycle[6], 0`. -/
theorem palette_cycling_witness :
    (0 ≤ paletteScenario.w_ ∧
      (∀ r ∈ paletteScenario.rows_,
        0 ≤ r.left paletteScenario.w_ ∧ r.right paletteScenario.w_ ≤ paletteScenario.w_) ∧
      (paletteScenario.rows_.length : Int) ≤ paletteScenario.h_ ∧
      paletteScenario.w_ * paletteScenario.h_ ≤ 2147483647) ∧
    (∃ frame, buildFrame paletteScenario = some frame ∧
      ∀ (k j : Nat) (c : Int), 1 ≤ k → (litPixels paletteScenario)[k - 1]? = some (j, c) →
        ∃ px, pixelAt frame paletteScenario.w_ j c = some px ∧
          (px.r : Int) = colorCycle.getD ((paletteScenario.frameNum_ + k) % 8) 0 ∧
          px.g = px.r ∧ px.b = px.r) ∧
    litPixels paletteScenario = [(0, 1), (0, 2), (0, 3), (0, 4), (0, 5), (0, 6)] ∧
    (buildFrame paletteScenario).map (List.map Color.r) =
      some [0, 150, 200, 200, 90, 90, 60, 0] :=
  ⟨⟨by decide, by decide, by decide, by decide⟩,
    palette_cycling paletteScenario (by decide) (by decide) (by decide) (by decide), by decide, by decide⟩

/-- C9, buffer shape and background.  For a state whose canvas width is not
negative, whose canvas size `w_ * h_` does not overflow an `int`, whose spans
lie inside the canvas and which has no more rows than the canvas has lines,
`buildFrame` returns a frame of exactly `w_ * h_` pixels
in row-major order; the pixel at line `j`, column `c` has a non-zero
brightness exactly when `j` is a row index and `left ≤ c < right` for that
row, and is the default `Color` `(0, 0, 0, 0)` otherwise. -/
theorem frame_shape_and_background (a : Anim) (hw : 0 ≤ a.w_)
    (hspan : ∀ r ∈ a.rows_, 0 ≤ r.left a.w_ ∧ r.right a.w_ ≤ a.w_)
    (hrows : (a.rows_.length : Int) ≤ a.h_) (hfits : a.w_ * a.h_ ≤ 2147483647) :
    ∃ frame, buildFrame a = some frame ∧ (frame.length : Int) = a.w_ * a.h_ ∧
      ∀ (j c : Nat), (j : Int) < a.h_ → (c : Int) < a.w_ →
        ∃ px, pixelAt frame a.w_ j c = some px ∧
          (px.r ≠ 0 ↔
            ∃ r, a.rows_[j]? = some r ∧ r.left a.w_ ≤ c ∧ (c : Int) < r.right a.w_) ∧
          ((¬ ∃ r, a.rows_[j]? = some r ∧ r.left a.w_ ≤ c ∧ (c : Int) < r.right a.w_) →
            px = { r := 0, g := 0, b := 0, a := 0 }) := by
  obtain ⟨frame, hf, hlen, hpix⟩ := buildFrame_spec a hw hspan hrows hfits
  refine ⟨frame, hf, hlen, ?_⟩
  intro j c hj hc
  have hp := hpix j c hj hc
  rw [← pixelAt_eq _ _ hw] at hp
  cases hr : a.rows_[j]? with
  | none =>
    rw [hr] at hp
    refine ⟨_, hp, ⟨fun h => absurd rfl h, ?_⟩, fun _ => rfl⟩
    rintro ⟨r, h, -⟩
    cases h
  | some r =>
    rw [hr] at hp
    by_cases hcond : r.left a.w_ ≤ c ∧ (c : Int) < r.right a.w_
    · have hch := grayPixel_channels
        ((a.frameNum_ + litBefore a.w_ a.rows_ j + (c - (r.left a.w_).toNat) + 1) % 8)
        (Nat.mod_lt _ (by decide))
      simp only [hcond, and_self, if_true] at hp
      refine ⟨_, hp, ⟨fun _ => ⟨r, rfl, hcond.1, hcond.2⟩, fun _ => hch.2.2.2.2⟩, ?_⟩
      intro h
      exact absurd ⟨r, rfl, hcond.1, hcond.2⟩ h
    · simp only [hcond, if_false] at hp
      refine ⟨_, hp, ⟨fun h => absurd rfl h, ?_⟩, fun _ => rfl⟩
      rintro ⟨r', h, h1, h2⟩
      cases h
      exact absurd ⟨h1, h2⟩ hcond

/-- Witness of C9: the initial state of `main`, an `8 × 8` canvas with the
eight initial rows. -/
theorem frame_shape_and_background_witness :
    (0 ≤ initialAnim.w_ ∧
      (∀ r ∈ initialAnim.rows_,
        0 ≤ r.left initialAnim.w_ ∧ r.right initialAnim.w_ ≤ initialAnim.w_) ∧
      (initialAnim.rows_.length : Int) ≤ initialAnim.h_ ∧
      initialAnim.w_ * initialAnim.h_ ≤ 2147483647) ∧
    ∃ frame, buildFrame initialAnim = some frame ∧
      (frame.length : Int) = initialAnim.w_ * initialAnim.h_ ∧
      ∀ (j c : Nat), (j : Int) < initialAnim.h_ → (c : Int) < initialAnim.w_ →
        ∃ px, pixelAt frame initialAnim.w_ j c = some px ∧
          (px.r ≠ 0 ↔ ∃ r, initialAnim.rows_[j]? = some r ∧
            r.left initialAnim.w_ ≤ c ∧ (c : Int) < r.right initialAnim.w_) ∧
          ((¬ ∃ r, initialAnim.rows_[j]? = some r ∧
              r.left initialAnim.w_ ≤ c ∧ (c : Int) < r.right initialAnim.w_) →
            px = { r := 0, g := 0, b := 0, a := 0 }) :=
  ⟨⟨by decide, by decide, by decide, by decide⟩,
    frame_shape_and_background initialAnim (by decide) (by decide) (by decide) (by decide)⟩

/-- C10 as stated fails: in the palette scenario the pixel at line `0`,
column `1` is lit, with brightness `150`, and its alpha channel is `0`, not
`255`. -/
theorem lit_pixel_alpha_is_not_255 :
    ∃ frame px, buildFrame paletteScenario = some frame ∧
      pixelAt frame paletteScenario.w_ 0 1 = some px ∧ px.r = 150 ∧ px.a = 0 ∧ px.a ≠ 255 :=
  ⟨_, _, rfl, rfl, rfl, rfl, by decide⟩

/-- C10 amended, alpha of lit pixels.  For a state whose canvas width is not
negative, whose canvas size `w_ * h_` does not overflow an `int`, whose spans
lie inside the canvas and which has no more rows than the canvas has lines,
`buildFrame` returns a frame, and every pixel it writes for a lit position
(a column inside the span of some row) has the alpha channel `0`: the
assignment sets `r`, `g` and `b` only, and `a` keeps the default `0`. -/
theorem lit_pixels_alpha_zero (a : Anim) (hw : 0 ≤ a.w_)
    (hspan : ∀ r ∈ a.rows_, 0 ≤ r.left a.w_ ∧ r.right a.w_ ≤ a.w_)
    (hrows : (a.rows_.length : Int) ≤ a.h_) (hfits : a.w_ * a.h_ ≤ 2147483647) :
    ∃ frame, buildFrame a = some frame ∧
      ∀ (j : Nat) (c : Int) (r : Row), a.rows_[j]? = some r →
        r.left a.w_ ≤ c → c < r.right a.w_ →
        ∃ px, pixelAt frame a.w_ j c = some px ∧ px.a = 0 := by
  obtain ⟨frame, hf, -, hpix⟩ := buildFrame_spec a hw hspan hrows hfits
  refine ⟨frame, hf, ?_⟩
  intro j c r hr hl hrt
  have hjlen : j < a.rows_.length := by
    by_contra hc
    rw [List.getElem?_eq_none (by omega)] at hr
    cases hr
  have hrin := hspan r (List.getElem?_mem hr)
  obtain ⟨C, hC⟩ : ∃ C : Nat, c = C := ⟨c.toNat, by omega⟩
  subst hC
  have := hpix j C (by omega) (by omega)
  simp only [hr] at this
  rw [if_pos ⟨hl, hrt⟩] at this
  have hch := grayPixel_channels
    ((a.frameNum_ + litBefore a.w_ a.rows_ j + (C - (r.left a.w_).toNat) + 1) % 8)
    (Nat.mod_lt _ (by decide))
  exact ⟨_, by rw [pixelAt_eq _ _ hw]; exact this, hch.2.2.2.1⟩

/-- Witness of C10 amended: the palette scenario, where the lit pixel at
line `0`, column `1` has alpha `0`. -/
theorem lit_pixels_alpha_zero_witness :
    (0 ≤ paletteScenario.w_ ∧
      (∀ r ∈ paletteScenario.rows_,
        0 ≤ r.left paletteScenario.w_ ∧ r.right paletteScenario.w_ ≤ paletteScenario.w_) ∧
      (paletteScenario.rows_.length : Int) ≤ paletteScenario.h_ ∧
      paletteScenario.w_ * paletteScenario.h_ ≤ 2147483647) ∧
    ∃ frame, buildFrame paletteScenario = some frame ∧
      ∀ (j : Nat) (c : Int) (r : Row), paletteScenario.rows_[j]? = some r →
        r.left paletteScenario.w_ ≤ c → c < r.right paletteScenario.w_ →
        ∃ px, pixelAt frame paletteScenario.w_ j c = some px ∧ px.a = 0 :=
  ⟨⟨by decide, by decide, by decide, by decide⟩,
    lit_pixels_alpha_zero paletteScenario (by decide) (by decide) (by decide) (by decide)⟩

/-! ## Lemmas on the frame size and on `frameData` -/

/-- A successful store keeps the size of the frame. -/
theorem storeAt_length (frame frame1 : List Color) (index : Int) (c : Color)
    (h : storeAt frame index c = some frame1) : frame1.length = frame.length := by
  unfold storeAt at h
  split_ifs at h
  cases h
  exact List.length_set _ _ _

/-- The inner loop of `buildFrame` keeps the size of the frame. -/
theorem paintRow_length (w : Int) (ri : Nat) :
    ∀ (n : Nat) (i : Int) (ci : Nat) (frame : List Color) (ci1 : Nat) (frame1 : List Color),
      paintRow w ri n i ci frame = some (ci1, frame1) → frame1.length = frame.length := by
  intro n
  induction n with
  | zero =>
    intro i ci frame ci1 frame1 h
    simp only [paintRow, Option.some.injEq, Prod.mk.injEq] at h
    rw [← h.2]
  | succ n ih =>
    intro i ci frame ci1 frame1 h
    simp only [paintRow] at h
    split at h
    · cases h
    · rename_i frame2 hstore
      rw [ih _ _ _ _ _ h, storeAt_length _ _ _ _ hstore]

/-- The outer loop of `buildFrame` keeps the size of the frame. -/
theorem paintRows_length (w : Int) :
    ∀ (rows : List Row) (ri ci : Nat) (frame : List Color) (ci1 : Nat) (frame1 : List Color),
      paintRows w rows ri ci frame = some (ci1, frame1) → frame1.length = frame.length := by
  intro rows
  induction rows with
  | nil =>
    intro ri ci frame ci1 frame1 h
    simp only [paintRows, Option.some.injEq, Prod.mk.injEq] at h
    rw [← h.2]
  | cons row rest ih =>
    intro ri ci frame ci1 frame1 h
    simp only [paintRows] at h
    split at h
    · cases h
    · rename_i ci2 frame2 hrow
      rw [ih _ _ _ _ _ h, paintRow_length _ _ _ _ _ _ _ _ hrow]

/-- A frame that `buildFrame` returns has `w_ * h_` pixels. -/
theorem buildFrame_length (a : Anim) (frame : List Color) (h : buildFrame a = some frame) :
    (frame.length : Int) = a.w_ * a.h_ := by
  unfold buildFrame at h
  split_ifs at h with hover hneg
  cases hp : paintRows a.w_ a.rows_ 0 (a.frameNum_ % colorCycle.length)
      (List.replicate (a.w_ * a.h_).toNat {}) with
  | none =>
    rw [hp] at h
    cases h
  | some p =>
    rw [hp] at h
    simp only [Option.map_some', Option.some.injEq] at h
    rw [← h, paintRows_length _ _ _ _ _ p.1 p.2 hp, List.length_replicate]
    omega

/-- The bytes of pixel `p` in `frameData`. -/
theorem frameData_getElem (frame : List Color) :
    (frameData frame).length = 4 * frame.length ∧
    ∀ p, (frameData frame)[4 * p]? = frame[p]?.map Color.r ∧
      (frameData frame)[4 * p + 1]? = frame[p]?.map Color.g ∧
      (frameData frame)[4 * p + 2]? = frame[p]?.map Color.b ∧
      (frameData frame)[4 * p + 3]? = frame[p]?.map Color.a := by
  induction frame with
  | nil =>
    refine ⟨rfl, ?_⟩
    intro p
    simp [frameData]
  | cons c rest ih =>
    have hcons : frameData (c :: rest) = c.r :: c.g :: c.b :: c.a :: frameData rest := rfl
    refine ⟨by rw [hcons]; simp only [List.length_cons]; omega, ?_⟩
    intro p
    rw [hcons]
    cases p with
    | zero => simp
    | succ p =>
      have e0 : 4 * (p + 1) = 4 * p + 1 + 1 + 1 + 1 := by omega
      have e1 : 4 * (p + 1) + 1 = 4 * p + 1 + 1 + 1 + 1 + 1 := by omega
      have e2 : 4 * (p + 1) + 2 = 4 * p + 2 + 1 + 1 + 1 + 1 := by omega
      have e3 : 4 * (p + 1) + 3 = 4 * p + 3 + 1 + 1 + 1 + 1 := by omega
      rw [e1, e2, e3, e0]
      simp only [List.getElem?_cons_succ]
      exact ih.2 p

/-! ## Lemmas on the constructor -/

/-- The hypotheses of `buildFrame_spec` hold in every state of the `8 × 8` canvas that
satisfies the invariant; the spans end at column `7` at the latest and the offsets lie in
`[-4, 2]`. -/
theorem invariant_facts (a : Anim) (hinv : TickInvariant a) :
    a.w_ = 8 ∧ a.rows_.length = 8 ∧
      (∀ r ∈ a.rows_, 0 ≤ r.left a.w_ ∧ r.right a.w_ ≤ a.w_ - 1 ∧
        -4 ≤ r.offset ∧ r.offset ≤ 2 ∧ 1 ≤ r.length ∧ r.length ≤ 6) := by
  obtain ⟨hw, hlen, -, hin⟩ := hinv
  have hl : a.rows_.length = 8 := by
    have := congrArg List.length hlen
    simpa using this
  refine ⟨hw, hl, ?_⟩
  intro r hr
  obtain ⟨i, hi⟩ := List.getElem?_of_mem hr
  have hb := hin i r hi
  have hrl := row_length_range a hlen i r hi
  have h4 : Int.tdiv 8 2 = 4 := by decide
  have hdiv : Int.tdiv r.length 2 = r.length / 2 := Int.tdiv_eq_ediv (by omega) (by omega)
  rw [hw]
  refine ⟨hb.1, by omega, ?_, ?_, hrl.1, hrl.2⟩
  · have := hb.1
    simp only [Row.left, Row.midpoint, h4, hdiv] at this
    omega
  · have := hb.2
    simp only [Row.right, Row.left, Row.midpoint, h4, hdiv] at this
    omega

/-- The driver loop entered after `t` calls of `tick`, with `k` frames still to come, ends
after writing `k` more buffers; the buffer number `i` of them is the one `writeFrame` builds
in the state after `t + i + 1` calls of `tick`. -/
theorem driverLoop_frames (draws : Nat → Nat → Int) :
    ∀ (k fuel t : Nat) (a : Anim) (written : List (List Nat)),
      TickInvariant a → a.h_ = 8 → a.frameNum_ + k = 201 → k < fuel →
      runTicks initialAnim draws t = some a →
      ∃ out, driverLoop draws fuel t a written = Outcome.finished out ∧
        out.length = written.length + k ∧
        (∀ i, i < written.length → out[i]? = written[i]?) ∧
        (∀ i, i < k → ∃ s data, runTicks initialAnim draws (t + i + 1) = some s ∧
          writeFrame s = some data ∧ out[written.length + i]? = some data) := by
  intro k
  induction k with
  | zero =>
    intro fuel t a written hinv _ hf hfuel _
    obtain ⟨fuel, rfl⟩ : ∃ f, fuel = f + 1 := ⟨fuel - 1, by omega⟩
    obtain ⟨res, hr, -, -, hret, -, -⟩ := tick_keeps_invariant a (draws t) hinv
    rw [decide_eq_false (show ¬ a.frameNum_ ≤ 200 by omega)] at hret
    refine ⟨written, ?_, rfl, fun _ _ => rfl, fun i hi => by omega⟩
    simp only [driverLoop, hr, hret, Bool.false_eq_true, if_false]
  | succ k ih =>
    intro fuel t a written hinv hh hf hfuel hrun
    obtain ⟨fuel, rfl⟩ : ∃ f, fuel = f + 1 := ⟨fuel - 1, by omega⟩
    obtain ⟨res, hr, hinv', hh', hret, hf', -⟩ := tick_keeps_invariant a (draws t) hinv
    rw [decide_eq_true (show a.frameNum_ ≤ 200 by omega)] at hret
    rw [if_pos (by omega)] at hf'
    obtain ⟨frame, hframe, -⟩ := buildFrame_of_invariant res.anim hinv' (by rw [hh', hh])
    have hwrite : writeFrame res.anim = some (frameData frame) := by
      simp only [writeFrame, hframe, Option.map_some']
    have hrun' : runTicks initialAnim draws (t + 1) = some res.anim := by
      simp only [runTicks, hrun, hr, Option.map_some']
    obtain ⟨out, hout, hlen, hold, hnew⟩ :=
      ih fuel (t + 1) res.anim (written ++ [frameData frame]) hinv'
        (by rw [hh', hh]) (by omega) (by omega) hrun'
    have hlen1 : (written ++ [frameData frame]).length = written.length + 1 := by
      simp only [List.length_append, List.length_singleton]
    refine ⟨out, ?_, by omega, ?_, ?_⟩
    · simp only [driverLoop, hr, hret, if_true, hwrite]
      exact hout
    · intro i hi
      rw [hold i (by omega), List.getElem?_append_left hi]
    · intro i hi
      cases i with
      | zero =>
        refine ⟨res.anim, frameData frame, hrun', hwrite, ?_⟩
        rw [Nat.add_zero, hold _ (by omega), List.getElem?_append_right (le_refl _)]
        simp
      | succ i =>
        obtain ⟨s, data, hs, hd, ho⟩ := hnew i (by omega)
        refine ⟨s, data, ?_, hd, ?_⟩
        · have e : t + (i + 1) + 1 = t + 1 + i + 1 := by omega
          rw [e]
          exact hs
        · have e : written.length + (i + 1) = (written ++ [frameData frame]).length + i := by
            omega
          rw [e]
          exact ho

/-! ## The properties of `writeFrame`, of the constructor, of `main` and of reachable states -/

/-! ## The calls of `buildFrame` and `writeFrame` as state transformers -/

/-- The inner loop, run on the variables of the call, assigns `frame` and `colorIndex` as
`paintRow` computes them and leaves the data members alone. -/
theorem paintRowState_eq (rowIndex : Nat) (row : Row) :
    ∀ (fuel : Nat) (i : Int) (st : RenderState), st.anim.rows_[rowIndex]? = some row →
      (row.right st.anim.w_ - i).toNat < fuel →
      paintRowState rowIndex fuel i st =
        (paintRow st.anim.w_ rowIndex (row.right st.anim.w_ - i).toNat i st.colorIndex
          st.frame).map (fun p => { anim := st.anim, frame := p.2, colorIndex := p.1 }) := by
  intro fuel
  induction fuel with
  | zero =>
    intro i st _ h
    omega
  | succ fuel ih =>
    intro i st hrow hfuel
    by_cases hi : i < row.right st.anim.w_
    · obtain ⟨n, hn⟩ : ∃ n, (row.right st.anim.w_ - i).toNat = n + 1 :=
        ⟨(row.right st.anim.w_ - i).toNat - 1, by omega⟩
      have hn' : (row.right st.anim.w_ - (i + 1)).toNat = n := by omega
      simp only [paintRowState, hrow, hi, if_true, hn, paintRow]
      cases hstore : storeAt st.frame (↑rowIndex * st.anim.w_ + i)
          { r := (colorCycle.getD ((st.colorIndex + 1) % colorCycle.length) 0 % 256).toNat,
            g := (colorCycle.getD ((st.colorIndex + 1) % colorCycle.length) 0 % 256).toNat,
            b := (colorCycle.getD ((st.colorIndex + 1) % colorCycle.length) 0 % 256).toNat } with
      | none => rfl
      | some frame1 =>
        simp only
        have := ih (i + 1)
          { anim := st.anim, frame := frame1,
            colorIndex := (st.colorIndex + 1) % colorCycle.length } hrow (by simp only; omega)
        simp only [hn'] at this
        exact this
    · have hz : (row.right st.anim.w_ - i).toNat = 0 := by omega
      simp only [paintRowState, hrow, hi, if_false, hz, paintRow, Option.map_some']

/-- The outer loop, run on the variables of the call, assigns `frame` and `colorIndex` as
`paintRows` computes them and leaves the data members alone. -/
theorem paintRowsState_eq :
    ∀ (fuel rowIndex : Nat) (st : RenderState), rowIndex ≤ st.anim.rows_.length →
      st.anim.rows_.length - rowIndex < fuel →
      paintRowsState fuel rowIndex st =
        (paintRows st.anim.w_ (st.anim.rows_.drop rowIndex) rowIndex st.colorIndex
          st.frame).map (fun p => { anim := st.anim, frame := p.2, colorIndex := p.1 }) := by
  intro fuel
  induction fuel with
  | zero =>
    intro rowIndex st _ h
    omega
  | succ fuel ih =>
    intro rowIndex st hle hfuel
    by_cases hlt : rowIndex < st.anim.rows_.length
    · have hrow : st.anim.rows_[rowIndex]? = some st.anim.rows_[rowIndex] :=
        List.getElem?_eq_getElem hlt
      have hdrop : st.anim.rows_.drop rowIndex =
          st.anim.rows_[rowIndex] :: st.anim.rows_.drop (rowIndex + 1) :=
        List.drop_eq_getElem_cons hlt
      have hinner := paintRowState_eq rowIndex st.anim.rows_[rowIndex]
        ((st.anim.rows_[rowIndex].right st.anim.w_ -
          st.anim.rows_[rowIndex].left st.anim.w_).toNat + 1)
        (st.anim.rows_[rowIndex].left st.anim.w_) st hrow (by omega)
      simp only [paintRowsState, hlt, if_true, hrow, hdrop, paintRows, hinner]
      cases hp : paintRow st.anim.w_ rowIndex
          (st.anim.rows_[rowIndex].right st.anim.w_ -
            st.anim.rows_[rowIndex].left st.anim.w_).toNat
          (st.anim.rows_[rowIndex].left st.anim.w_) st.colorIndex st.frame with
      | none => rfl
      | some p =>
        simp only [Option.map_some']
        exact ih (rowIndex + 1) { anim := st.anim, frame := p.2, colorIndex := p.1 }
          (by simp only; omega) (by simp only; omega)
    · have hz : st.anim.rows_.drop rowIndex = [] := List.drop_eq_nil_of_le (by omega)
      simp only [paintRowsState, hlt, if_false, hz, paintRows, Option.map_some']

/-- A call of `buildFrame` returns the frame that `buildFrame` computes and leaves every
data member as it was. -/
theorem buildFrameCall_eq (a : Anim) :
    buildFrameCall a = (buildFrame a).map (fun frame => (frame, a)) := by
  unfold buildFrameCall buildFrame
  split_ifs with h1 h2
  · rfl
  · rfl
  · have := paintRowsState_eq (a.rows_.length + 1) 0
      { anim := a, frame := List.replicate (a.w_ * a.h_).toNat {},
        colorIndex := a.frameNum_ % colorCycle.length } (Nat.zero_le _) (by simp only; omega)
    simp only [List.drop_zero] at this
    rw [this]
    cases paintRows a.w_ a.rows_ 0 (a.frameNum_ % colorCycle.length)
      (List.replicate (a.w_ * a.h_).toNat {}) with
    | none => rfl
    | some p => rfl

/-- C11, compositor purity.  A call of `buildFrame`, run statement by
statement on the data members and its locals, returns the data members
unchanged (so neither the row list nor the frame counter changes), and so
does a call of `writeFrame`, which hands one buffer to the encoder; a second
render with no `tick` in between returns the same frame, respectively hands
the same buffer to the encoder; and two objects that agree on `w_`, `h_`,
`frameNum_` and `rows_` get the same frame and the same buffer, whatever
their `delay_` and whatever the encoder holds. -/
theorem compositor_purity (a : Anim) (encoder : List (List Nat)) :
    (∀ frame a1, buildFrameCall a = some (frame, a1) →
      a1 = a ∧ buildFrameCall a1 = some (frame, a1)) ∧
    (∀ a1 enc1, writeFrameCall a encoder = some (a1, enc1) →
      a1 = a ∧ ∃ data, enc1 = encoder ++ [data] ∧
        writeFrameCall a1 enc1 = some (a1, enc1 ++ [data])) ∧
    (∀ (b : Anim) (encoder' : List (List Nat)),
      b.w_ = a.w_ → b.h_ = a.h_ → b.frameNum_ = a.frameNum_ → b.rows_ = a.rows_ →
      (buildFrameCall b).map Prod.fst = (buildFrameCall a).map Prod.fst ∧
      (writeFrameCall b encoder').map (fun p => p.2.getLast?) =
        (writeFrameCall a encoder).map (fun p => p.2.getLast?)) := by
  have hb : ∀ x : Anim, buildFrameCall x = (buildFrame x).map (fun frame => (frame, x)) :=
    buildFrameCall_eq
  have hwf : ∀ (x : Anim) (enc : List (List Nat)), writeFrameCall x enc =
      (buildFrame x).map (fun frame => (x, enc ++ [frameData frame])) := by
    intro x enc
    unfold writeFrameCall
    rw [hb x]
    cases buildFrame x with
    | none => rfl
    | some frame => rfl
  refine ⟨?_, ?_, ?_⟩
  · intro frame a1 h
    rw [hb a] at h
    cases hfa : buildFrame a with
    | none =>
      rw [hfa] at h
      cases h
    | some fr =>
      rw [hfa] at h
      simp only [Option.map_some', Option.some.injEq, Prod.mk.injEq] at h
      obtain ⟨h1, h2⟩ := h
      subst h1 h2
      exact ⟨rfl, by rw [hb a, hfa]; rfl⟩
  · intro a1 enc1 h
    rw [hwf a encoder] at h
    cases hfa : buildFrame a with
    | none =>
      rw [hfa] at h
      cases h
    | some fr =>
      rw [hfa] at h
      simp only [Option.map_some', Option.some.injEq, Prod.mk.injEq] at h
      obtain ⟨h1, h2⟩ := h
      subst h1 h2
      exact ⟨rfl, frameData fr, rfl, by rw [hwf a, hfa]; rfl⟩
  · intro b encoder' hw hh hf hr
    have hbf : buildFrame b = buildFrame a := by
      simp only [buildFrame, hw, hh, hf, hr]
    refine ⟨?_, ?_⟩
    · rw [hb b, hb a, hbf]
      cases buildFrame a with
      | none => rfl
      | some fr => rfl
    · rw [hwf b, hwf a, hbf]
      cases buildFrame a with
      | none => rfl
      | some fr => simp

/-- C12, encoder byte layout.  When `buildFrame` returns a frame, the buffer
`writeFrame` hands to the encoder has `4 * w_ * h_` bytes, and for every pixel
index `p` below `w_ * h_` the bytes `4p`, `4p + 1`, `4p + 2`, `4p + 3` are the
channels `r`, `g`, `b`, `a` of pixel `p` of that frame. -/
theorem encoder_byte_layout (a : Anim) (frame : List Color) (hframe : buildFrame a = some frame) :
    ∃ data, writeFrame a = some data ∧ (data.length : Int) = 4 * (a.w_ * a.h_) ∧
      ∀ p : Nat, (p : Int) < a.w_ * a.h_ →
        ∃ px, frame[p]? = some px ∧ data[4 * p]? = some px.r ∧ data[4 * p + 1]? = some px.g ∧
          data[4 * p + 2]? = some px.b ∧ data[4 * p + 3]? = some px.a := by
  have hlen := buildFrame_length a frame hframe
  obtain ⟨hdl, hbytes⟩ := frameData_getElem frame
  refine ⟨frameData frame, by simp only [writeFrame, hframe, Option.map_some'], ?_, ?_⟩
  · rw [hdl, ← hlen]
    push_cast
    rfl
  · intro p hp
    have hpl : p < frame.length := by omega
    obtain ⟨h0, h1, h2, h3⟩ := hbytes p
    rw [List.getElem?_eq_getElem hpl] at h0 h1 h2 h3
    exact ⟨frame[p], List.getElem?_eq_getElem hpl, h0, h1, h2, h3⟩

/-- Witness of C12: the palette scenario, whose frame has `8` pixels and whose
buffer has `32` bytes. -/
theorem encoder_byte_layout_witness :
    ∃ frame, buildFrame paletteScenario = some frame ∧
      ∃ data, writeFrame paletteScenario = some data ∧
        (data.length : Int) = 4 * (paletteScenario.w_ * paletteScenario.h_) ∧
        ∀ p : Nat, (p : Int) < paletteScenario.w_ * paletteScenario.h_ →
          ∃ px, frame[p]? = some px ∧ data[4 * p]? = some px.r ∧
            data[4 * p + 1]? = some px.g ∧ data[4 * p + 2]? = some px.b ∧
            data[4 * p + 3]? = some px.a :=
  ⟨_, rfl, encoder_byte_layout paletteScenario _ rfl⟩

/-- C14, driver termination.  For every supply of draws the loop
`while (a.tick()) a.writeFrame();` started from the initial state ends: with
room for `202` or more evaluations of its condition it finishes, having
written `201` buffers.  The call number `n` of `tick` (counted from `0`)
returns `true` exactly when `n < 201`, and then the buffer number `n` is the
one `writeFrame` builds in the state that call left behind; a call that
returns `false` has no buffer. -/
theorem driver_terminates (draws : Nat → Nat → Int) (k : Nat) :
    ∃ written, main draws (202 + k) = Outcome.finished written ∧ written.length = 201 ∧
      ∀ n, ∃ s res, runTicks initialAnim draws n = some s ∧ tick s (draws n) = some res ∧
        (res.ret = true →
          n < 201 ∧ ∃ data, writeFrame res.anim = some data ∧ written[n]? = some data) ∧
        (res.ret = false → 201 ≤ n ∧ written[n]? = none) := by
  obtain ⟨out, h1, h2, -, h4⟩ := driverLoop_frames draws 201 (202 + k) 0 initialAnim []
    (tickInvariant_create 8 15) rfl rfl (by omega) rfl
  have hlen : out.length = 201 := by simpa using h2
  refine ⟨out, h1, hlen, ?_⟩
  intro n
  obtain ⟨s, hs, hinv, -, hf⟩ := runTicks_spec 8 15 draws n
  obtain ⟨res, hr, -, -, hret, -, -⟩ := tick_keeps_invariant s (draws n) hinv
  refine ⟨s, res, hs, hr, ?_, ?_⟩
  · intro htrue
    rw [hret, hf, decide_eq_true_eq] at htrue
    have hn : n < 201 := by omega
    refine ⟨hn, ?_⟩
    obtain ⟨s', data, hs', hd, ho⟩ := h4 n hn
    have hrun : runTicks initialAnim draws (n + 1) = some res.anim := by
      simp only [runTicks]
      rw [show runTicks initialAnim draws n = some s from hs]
      simp only [hr, Option.map_some']
    rw [Nat.zero_add] at hs'
    rw [hrun] at hs'
    cases hs'
    refine ⟨data, hd, ?_⟩
    simpa using ho
  · intro hfalse
    rw [hret, hf, decide_eq_false_iff_not] at hfalse
    have hn : 201 ≤ n := by omega
    exact ⟨hn, List.getElem?_eq_none (by omega)⟩

/-- C15, palette periodicity.  For a state whose canvas width is not negative,
whose canvas size `w_ * h_` does not overflow an `int`, whose spans lie inside
the canvas and which has no more rows than the canvas has lines, `buildFrame`
returns a frame, and it returns the same frame when
the frame counter is `frameNum_ + 8` or `frameNum_ % 8` instead of
`frameNum_`. -/
theorem palette_periodicity (a : Anim) (hw : 0 ≤ a.w_)
    (hspan : ∀ r ∈ a.rows_, 0 ≤ r.left a.w_ ∧ r.right a.w_ ≤ a.w_)
    (hrows : (a.rows_.length : Int) ≤ a.h_) (hfits : a.w_ * a.h_ ≤ 2147483647) :
    ∃ frame, buildFrame a = some frame ∧
      buildFrame { a with frameNum_ := a.frameNum_ + 8 } = some frame ∧
      buildFrame { a with frameNum_ := a.frameNum_ % 8 } = some frame := by
  obtain ⟨frame, hf, -⟩ := buildFrame_spec a hw hspan hrows hfits
  refine ⟨frame, hf, ?_, ?_⟩
  · rw [← hf]
    simp only [buildFrame, colorCycle_length, Nat.add_mod_right]
  · rw [← hf]
    simp only [buildFrame, colorCycle_length, Nat.mod_mod]

/-- Witness of C15: the initial state of `main`. -/
theorem palette_periodicity_witness :
    (0 ≤ initialAnim.w_ ∧
      (∀ r ∈ initialAnim.rows_,
        0 ≤ r.left initialAnim.w_ ∧ r.right initialAnim.w_ ≤ initialAnim.w_) ∧
      (initialAnim.rows_.length : Int) ≤ initialAnim.h_ ∧
      initialAnim.w_ * initialAnim.h_ ≤ 2147483647) ∧
    ∃ frame, buildFrame initialAnim = some frame ∧
      buildFrame { initialAnim with frameNum_ := initialAnim.frameNum_ + 8 } = some frame ∧
      buildFrame { initialAnim with frameNum_ := initialAnim.frameNum_ % 8 } = some frame :=
  ⟨⟨by decide, by decide, by decide, by decide⟩,
    palette_periodicity initialAnim (by decide) (by decide) (by decide) (by decide)⟩

/-- The frame of a step in any state.  For every state and every supply of draws in
`{-1, 0, 1}`, `tick` returns and leaves the canvas width and height, the
number of rows and every row's length unchanged; an offset that differs after
the call is the `int8_t` store of its previous value plus `1` or minus `1`,
so it differs from its previous value by exactly `+1` or `-1` whenever that
previous value lies in `[-127, 126]`. -/
theorem tick_step_any_state (a : Anim) (draws : Nat → Int)
    (hdraws : ∀ i, draws i = -1 ∨ draws i = 0 ∨ draws i = 1) :
    ∃ res, tick a draws = some res ∧ res.anim.w_ = a.w_ ∧ res.anim.h_ = a.h_ ∧
      res.anim.rows_.length = a.rows_.length ∧
      res.anim.rows_.map Row.length = a.rows_.map Row.length ∧
      ∀ (j : Nat) (r r' : Row), a.rows_[j]? = some r → res.anim.rows_[j]? = some r' →
        r'.offset ≠ r.offset →
        (r'.offset = wrapInt8 (r.offset + 1) ∨ r'.offset = wrapInt8 (r.offset - 1)) ∧
        (-127 ≤ r.offset → r.offset ≤ 126 →
          r'.offset = r.offset + 1 ∨ r'.offset = r.offset - 1) := by
  rcases tick_cases a draws with ⟨-, ht⟩ | ⟨-, i, hi, hm, -, ht⟩ | ⟨-, -, ht⟩
  · refine ⟨_, ht, rfl, rfl, rfl, rfl, ?_⟩
    intro j r r' hr hr' hne
    rw [hr] at hr'
    cases hr'
    exact absurd rfl hne
  · refine ⟨_, ht, rfl, rfl, (changedOffsets_moveRow _ _ _).1, map_length_moveRow _ _ _, ?_⟩
    intro j r r' hr hr' hne
    obtain ⟨row, hrow⟩ : ∃ row, a.rows_[i]? = some row := ⟨_, List.getElem?_eq_getElem hi⟩
    simp only [getElem?_moveRow a.rows_ i (draws i) row hrow] at hr'
    by_cases hji : j = i
    · subst hji
      rw [hr] at hrow
      cases hrow
      simp only [if_true, Option.some.injEq] at hr'
      subst hr'
      have hd0 : draws j ≠ 0 := hm.1
      rcases hdraws j with hd | hd | hd
      · rw [hd]
        refine ⟨Or.inr rfl, ?_⟩
        intro h1 h2
        right
        exact wrapInt8_of_fits _ (by omega) (by omega)
      · exact absurd hd hd0
      · rw [hd]
        refine ⟨Or.inl rfl, ?_⟩
        intro h1 h2
        left
        exact wrapInt8_of_fits _ (by omega) (by omega)
    · simp only [hji, if_false] at hr'
      rw [hr] at hr'
      cases hr'
      exact absurd rfl hne
  · refine ⟨_, ht, rfl, rfl, rfl, rfl, ?_⟩
    intro j r r' hr hr' hne
    rw [hr] at hr'
    cases hr'
    exact absurd rfl hne

/-- C16, step frame.  Take an object built on any canvas and any supply of
draws in `{-1, 0, 1}`; let `s` be its state after any number `n` of calls of
`tick`.  The next call of `tick` returns and leaves the canvas width and
height, the number of rows and every row's length unchanged, and an offset
that differs after the call differs from its previous value by exactly `+1` or
`-1`. -/
theorem tick_step_frame (width height frameDelay : Int) (draws : Nat → Nat → Int)
    (hdraws : ∀ t i, draws t i = -1 ∨ draws t i = 0 ∨ draws t i = 1) (n : Nat) :
    ∃ s res, runTicks (Anim.create width height frameDelay) draws n = some s ∧
      tick s (draws n) = some res ∧ res.anim.w_ = s.w_ ∧ res.anim.h_ = s.h_ ∧
      res.anim.rows_.length = s.rows_.length ∧
      res.anim.rows_.map Row.length = s.rows_.map Row.length ∧
      ∀ (j : Nat) (r r' : Row), s.rows_[j]? = some r → res.anim.rows_[j]? = some r' →
        r'.offset ≠ r.offset → r'.offset = r.offset + 1 ∨ r'.offset = r.offset - 1 := by
  obtain ⟨s, hs, hinv, -, -, -⟩ := runTicks_any_canvas width height frameDelay draws hdraws n
  obtain ⟨res, hr, hw, hh, hlen, hmap, hoff⟩ := tick_step_any_state s (draws n) (hdraws n)
  refine ⟨s, res, hs, hr, hw, hh, hlen, hmap, ?_⟩
  intro j r r' hrj hrj' hne
  have hb := offsets_bounded s hinv j r hrj
  exact (hoff j r r' hrj hrj' hne).2 (by omega) (by omega)

/-- Witness of C16: the object of `main` with every draw equal to `+1`, at
its first call of `tick`, where row `4` goes from offset `0` to offset `1` and
no other offset changes. -/
theorem tick_step_frame_witness :
    (∀ t i : Nat, (fun _ _ => (1 : Int)) t i = -1 ∨ (fun _ _ => (1 : Int)) t i = 0 ∨
      (fun _ _ => (1 : Int)) t i = 1) ∧
    ∃ s res, runTicks (Anim.create 8 8 15) (fun _ _ => 1) 0 = some s ∧
      tick s (fun _ => 1) = some res ∧ res.anim.w_ = s.w_ ∧ res.anim.h_ = s.h_ ∧
      res.anim.rows_.length = s.rows_.length ∧
      res.anim.rows_.map Row.length = s.rows_.map Row.length ∧
      s.rows_.map Row.offset = [0, 0, 0, 0, 0, 0, 0, 0] ∧
      res.anim.rows_.map Row.offset = [0, 0, 0, 0, 1, 0, 0, 0] := by
  refine ⟨fun _ _ => Or.inr (Or.inr rfl), ?_⟩
  obtain ⟨s, res, h0, h1, h2, h3, h4, h5, -⟩ :=
    tick_step_frame 8 8 15 (fun _ _ => 1) (fun _ _ => Or.inr (Or.inr rfl)) 0
  have hs : s = initialAnim := by
    simp only [runTicks, Option.some.injEq] at h0
    exact h0.symm
  subst hs
  have hres : tick initialAnim (fun _ => 1) = some
      ⟨⟨8, 8, 15, 1, [⟨6, 0⟩, ⟨6, 0⟩, ⟨5, 0⟩, ⟨5, 0⟩, ⟨4, 1⟩, ⟨3, 0⟩, ⟨2, 0⟩, ⟨1, 0⟩]⟩,
        true, 5⟩ := by decide
  rw [hres] at h1
  cases h1
  exact ⟨initialAnim, _, rfl, hres, h2, h3, h4, h5, rfl, rfl⟩

/-- C17, no out-of-range access.  In every state reached from the initial
state of `main` on the `8 × 8` canvas, `tick` and `buildFrame` return (no
access throws or leaves its container); `canMove` returns for every row index
and every distance, its lookups `rows.at(rowNum - 1)` and `rows.at(rowNum + 1)`
being made for indices inside the row list; and every index
`rowIndex * w_ + i` that `buildFrame` writes, for `i` in `[left, right)`, has
`0 ≤ i`, lies below `w_ * h_` and lies inside line `rowIndex` of the frame. -/
theorem no_out_of_range_access (draws : Nat → Nat → Int) (n : Nat) :
    ∃ s, runTicks initialAnim draws n = some s ∧
      (∃ res, tick s (draws n) = some res) ∧
      (∃ frame, buildFrame s = some frame ∧ (frame.length : Int) = s.w_ * s.h_) ∧
      (∀ (rowNum : Nat) (d : Int), rowNum < s.rows_.length →
        (∃ b, canMove s.rows_ rowNum d s.w_ = some b) ∧
        (rowNum ≠ 0 → ∃ above, s.rows_[rowNum - 1]? = some above) ∧
        (rowNum < s.rows_.length - 1 → ∃ below, s.rows_[rowNum + 1]? = some below)) ∧
      (∀ (j : Nat) (r : Row) (i : Int), s.rows_[j]? = some r →
        r.left s.w_ ≤ i → i < r.right s.w_ →
        0 ≤ i ∧ (j : Int) * s.w_ + i < s.w_ * s.h_ ∧
        (j : Int) * s.w_ ≤ (j : Int) * s.w_ + i ∧
        (j : Int) * s.w_ + i < ((j : Int) + 1) * s.w_) := by
  obtain ⟨s, hs, hinv, hh, -⟩ := runTicks_spec 8 15 draws n
  obtain ⟨res, hr, -⟩ := tick_keeps_invariant s (draws n) hinv
  obtain ⟨frame, hf, -⟩ := buildFrame_of_invariant s hinv hh
  obtain ⟨hw, hl, hrows⟩ := invariant_facts s hinv
  refine ⟨s, hs, ⟨res, hr⟩, ⟨frame, hf, buildFrame_length s frame hf⟩, ?_, ?_⟩
  · intro rowNum d hrow
    refine ⟨?_, ?_, ?_⟩
    · rcases canMove_cases s.rows_ rowNum d s.w_ hrow with ⟨h, -⟩ | ⟨h, -⟩
      · exact ⟨_, h⟩
      · exact ⟨_, h⟩
    · intro _
      exact ⟨_, List.getElem?_eq_getElem (by omega)⟩
    · intro h
      exact ⟨_, List.getElem?_eq_getElem (by omega)⟩
  · intro j r i hr' hl' hr''
    have hjl : j < s.rows_.length := by
      by_contra hc
      rw [List.getElem?_eq_none (by omega)] at hr'
      cases hr'
    have hb := hrows r (List.getElem?_mem hr')
    rw [hw, hh] at *
    have hj8 : (j : Int) < 8 := by omega
    refine ⟨by omega, by omega, by omega, by omega⟩

/-- C18, no 8-bit overflow of offsets.  In every state reached from the
initial state on the canvas of width `8`, every offset lies in `[-4, 2]`, and
for every move that `canMove` accepts there the sum `offset + distance` lies in
the range of `int8_t`, so the store `offset += distance` leaves exactly that
sum in the field. -/
theorem offsets_never_overflow (height frameDelay : Int) (draws : Nat → Nat → Int) (n : Nat) :
    ∃ s, runTicks (Anim.create 8 height frameDelay) draws n = some s ∧
      (∀ r ∈ s.rows_, -4 ≤ r.offset ∧ r.offset ≤ 2) ∧
      ∀ (i : Nat) (row : Row) (d : Int), s.rows_[i]? = some row →
        canMove s.rows_ i d s.w_ = some true →
        -128 ≤ row.offset + d ∧ row.offset + d ≤ 127 ∧
        wrapInt8 (row.offset + d) = row.offset + d ∧
        (moveRow s.rows_ i d)[i]? = some { row with offset := row.offset + d } := by
  obtain ⟨s, hs, hinv, -, -⟩ := runTicks_spec height frameDelay draws n
  obtain ⟨hw, -, hrows⟩ := invariant_facts s hinv
  refine ⟨s, hs, fun r hr => ⟨(hrows r hr).2.2.1, (hrows r hr).2.2.2.1⟩, ?_⟩
  intro i row d hrow hcan
  obtain ⟨row', hrow', hl, hr, -⟩ := (canMove_eq_true_iff s.rows_ i d s.w_).mp hcan
  rw [hrow] at hrow'
  cases hrow'
  have hb := hrows row (List.getElem?_mem hrow)
  rw [hw] at hl hr
  have h4 : Int.tdiv 8 2 = 4 := by decide
  have hdiv : Int.tdiv row.length 2 = row.length / 2 := Int.tdiv_eq_ediv (by omega) (by omega)
  simp only [Row.right, Row.left, Row.midpoint, h4, hdiv] at hl hr
  have h1 : -128 ≤ row.offset + d := by omega
  have h2 : row.offset + d ≤ 127 := by omega
  have hfit := wrapInt8_of_fits _ h1 h2
  refine ⟨h1, h2, hfit, ?_⟩
  rw [getElem?_moveRow s.rows_ i d row hrow i, if_pos rfl, hfit]

/-- C19, the right edge is never reached.  In every state reached from the
initial state of `main` on the `8 × 8` canvas, every row has
`right(w_) ≤ w_ - 1`, `buildFrame` returns a frame, and in every line of that
frame the pixel of the last column, column `7`, is the default `Color`
`(0, 0, 0, 0)`. -/
theorem right_edge_never_reached (draws : Nat → Nat → Int) (n : Nat) :
    ∃ s frame, runTicks initialAnim draws n = some s ∧
      (∀ r ∈ s.rows_, r.right s.w_ ≤ s.w_ - 1) ∧ buildFrame s = some frame ∧
      ∀ j : Nat, j < 8 → pixelAt frame s.w_ j 7 = some { r := 0, g := 0, b := 0, a := 0 } := by
  obtain ⟨s, hs, hinv, hh, -⟩ := runTicks_spec 8 15 draws n
  obtain ⟨hw, hl, hrows⟩ := invariant_facts s hinv
  obtain ⟨frame, hf, -, hpix⟩ := buildFrame_spec s (by omega)
    (fun r hr => ⟨(hrows r hr).1, by have := (hrows r hr).2.1; omega⟩) (by omega)
    (by rw [hw, hh]; decide)
  refine ⟨s, frame, hs, fun r hr => (hrows r hr).2.1, hf, ?_⟩
  intro j hj
  have hp := hpix j 7 (by omega) (by omega)
  have hpa : pixelAt frame s.w_ j ((7 : Nat) : Int) = frame[j * s.w_.toNat + 7]? :=
    pixelAt_eq frame s.w_ (by omega) j 7
  have h7 : ((7 : Nat) : Int) = 7 := rfl
  rw [h7] at hpa
  rw [hpa, hp]
  cases hr : s.rows_[j]? with
  | none => rfl
  | some r =>
    have hb := (hrows r (List.getElem?_mem hr)).2.1
    rw [hw] at hb
    have hcond : ¬ (r.left s.w_ ≤ ((7 : Nat) : Int) ∧ (((7 : Nat) : Int)) < r.right s.w_) := by
      rw [hw]
      omega
    simp only [hcond, if_false]

end Tornado
